import Mathlib

/-!
# GoBuilder: toolchain discovery and output naming

A shallow embedding of `main.go`: the bounded-depth search `walkDirLimited`
(with the `filepath.Walk` traversal it drives), the discovery strategies of
`findGo`, and the interactive `main`.

Library behaviour the program relies on is modelled as follows.

* Paths are strings; `filepath.Join` and `filepath.Clean` follow the lexical
  rules of Go's `path/filepath`: empty and `.` elements are dropped, `..` is
  resolved against the preceding element, and the result ends in a separator
  only when it is a root directory. On Windows both `/` and `\` separate
  elements and the result is written with `\`; a volume name (a drive letter
  with its colon, or `\\host\share`) stays in front and is no element, so
  that `C:` cleans to `C:.` and `Join("C:.", "a")` is `C:a`; `Join` adds no
  separator after a colon or after a separator.
* Not modelled: the volume rules of Windows device paths (`\\.\UNC\...`,
  `\\?\...`, `\??\...`), which are read here as network paths or rooted paths,
  and the `.\` that `Clean` writes in front of a relative result whose first
  element holds a colon (`a\..\c:x`). The statements below are about roots
  (`plainRoot`, `IsCleanRoot`) and entry names (`entryName`) that have none of
  these forms. A character stands for a byte.
* A file tree is the listing `filepath.Walk` reads: the names of a directory
  in the order `readDirNames` returns them, each with what `Lstat` reports.
* The host (search path, `os.Stat`, `os.ReadDir`, environment) is a record of
  functions; every library call the program makes is logged as an `Op`.
-/

namespace GoBuilder

/-! ## Paths -/

/-- The value of `os.PathSeparator` on a host whose `runtime.GOOS` is `goos`. -/
def PathSeparator (goos : String) : Char :=
  if goos = "windows" then '\\' else '/'

/-- The function `os.IsPathSeparator`: the slash, and on Windows the backslash
as well. -/
def IsPathSeparator (goos : String) (c : Char) : Bool :=
  c = '/' ∨ (goos = "windows" ∧ c = '\\')

/-- `strings.Count(s, string(sep))` for a one-character separator. -/
def countSep (sep : Char) (s : String) : Nat :=
  s.data.count sep

/-- The elements of a path: the pieces between its separators. -/
def splitSep (isSep : Char → Bool) : List Char → List (List Char)
  | [] => [[]]
  | c :: cs =>
    if isSep c then [] :: splitSep isSep cs
    else match splitSep isSep cs with
      | [] => [[c]]
      | e :: es => (c :: e) :: es

/-- `strings.Join` with a one-character separator. -/
def joinSep (sep : Char) : List (List Char) → List Char
  | [] => []
  | [e] => e
  | e :: f :: es => e ++ sep :: joinSep sep (f :: es)

/-- One element of the scan in `filepath.Clean`. `out` holds the elements
written so far, the last one first. Empty and `.` elements are skipped; `..`
removes the last written element when there is one to backtrack over, is
dropped at the root, and is kept in front of a relative path. -/
def cleanStep (rooted : Bool) (out : List (List Char)) (e : List Char) : List (List Char) :=
  if e = [] ∨ e = ['.'] then out
  else if e = ['.', '.'] then
    match out with
    | [] => if rooted then [] else [e]
    | top :: rest => if top = ['.', '.'] then e :: out else rest
  else e :: out

/-- The scan of `filepath.Clean` over the part of a path that follows its
volume name: the elements that remain, written with the separator `sep`. -/
def cleanBody (isSep : Char → Bool) (sep : Char) (p : List Char) : List Char :=
  let rooted : Bool := match p with
    | c :: _ => isSep c
    | [] => false
  let out := ((splitSep isSep p).foldl (cleanStep rooted) []).reverse
  if rooted then sep :: joinSep sep out
  else if out = [] then ['.'] else joinSep sep out

/-- The position of the first separator. -/
def sepIndex (isSep : Char → Bool) : List Char → Option Nat
  | [] => none
  | c :: cs => if isSep c then some 0 else (sepIndex isSep cs).map (· + 1)

/-- The length of the volume name of a path that starts with two separators
(`\\host\share\...`): up to the second separator after them, or the whole path
when there is none. -/
def uncLen (isSep : Char → Bool) (p : List Char) : Nat :=
  match sepIndex isSep (p.drop 2) with
  | none => p.length
  | some i =>
    match sepIndex isSep (p.drop (2 + i + 1)) with
    | none => p.length
    | some j => 2 + i + 1 + j

/-- The length of the volume name of a path (`volumeNameLen`): nothing on a
Unix host; on Windows a drive letter with its colon, or the host and share of
a path that starts with two separators. -/
def volumeNameLen (goos : String) (p : List Char) : Nat :=
  if goos = "windows" then
    match p with
    | c :: ':' :: _ => if c.isAlpha then 2 else 0
    | c :: d :: _ =>
      if IsPathSeparator goos c ∧ IsPathSeparator goos d then uncLen (IsPathSeparator goos) p
      else 0
    | _ => 0
  else 0

/-- `filepath.FromSlash`: on Windows every slash becomes a backslash. -/
def fromSlash (goos : String) (p : List Char) : List Char :=
  if goos = "windows" then p.map (fun c => if c = '/' then '\\' else c) else p

/-- `filepath.Clean` on the characters of a path. The volume name is kept; a
path that is nothing but a volume name is returned as it is when it starts
with two separators and gets a `.` otherwise; the rest is scanned element by
element. -/
def cleanChars (goos : String) (p : List Char) : List Char :=
  let volLen := volumeNameLen goos p
  let rest := p.drop volLen
  if rest = [] then
    if volLen > 1 ∧ (p.take 2).all (IsPathSeparator goos) then fromSlash goos p
    else p ++ ['.']
  else
    fromSlash goos (p.take volLen) ++
      cleanBody (IsPathSeparator goos) (PathSeparator goos) rest

/-- `filepath.Clean`. -/
def Clean (goos : String) (path : String) : String :=
  ⟨cleanChars goos path.data⟩

/-- `filepath.Join` on a Unix host: leading empty elements are ignored, the
rest is joined with the separator and cleaned. -/
def joinUnix (goos : String) : List String → String
  | [] => ""
  | e :: es =>
    if e = "" then joinUnix goos es
    else Clean goos ⟨joinSep (PathSeparator goos) ((e :: es).map String.data)⟩

/-- The function `isSlash` of the Windows rules: a backslash or a slash. -/
def isSlash (c : Char) : Bool :=
  c = '\\' ∨ c = '/'

/-- One element added to the text `filepath.Join` builds on Windows: the first
non-empty element is taken as it is; after a separator the leading separators
of the element are dropped; after a colon the element follows directly; in
all other cases a backslash comes between. -/
def joinStep (b e : List Char) : List Char :=
  match b.getLast? with
  | none => e
  | some last =>
    if isSlash last then b ++ e.dropWhile isSlash
    else if last = ':' then b ++ e
    else b ++ '\\' :: e

/-- `filepath.Join`: the elements are put together and the result is cleaned;
the result is empty when every element is. -/
def Join (goos : String) (elem : List String) : String :=
  if goos = "windows" then
    let b := (elem.map String.data).foldl joinStep []
    if b = [] then "" else Clean goos ⟨b⟩
  else joinUnix goos elem

/-- Trailing separators removed, down to a single character at most. -/
def stripTrailingSep (isSep : Char → Bool) (p : List Char) : List Char :=
  match p.reverse.dropWhile isSep with
  | [] => p.take 1
  | c :: cs => (c :: cs).reverse

/-- The name `Lstat` reports for a path (`FileInfo.Name`): its last element,
after a drive letter (on Windows) and trailing separators are removed. -/
def basename (goos : String) (path : String) : String :=
  let p := path.data
  let name := if goos = "windows" then
      match p with
      | [_, ':'] => ['.']
      | _ :: ':' :: c :: rest => c :: rest
      | _ => p
    else p
  match stripTrailingSep (IsPathSeparator goos) name with
  | [c] => ⟨[c]⟩
  | t => ⟨((splitSep (IsPathSeparator goos) t).getLast?).getD []⟩

/-! ## File trees as `filepath.Walk` sees them -/

/-- The entries of a directory in the order `readDirNames` returns them. Each
entry carries its name and what `Lstat` and `readDirNames` report for it. -/
inductive Listing where
  /-- No (more) entries. -/
  | nil : Listing
  /-- An entry that is not a directory. -/
  | file (name : String) (rest : Listing) : Listing
  /-- An entry for which `Lstat` fails. -/
  | broken (name : String) (rest : Listing) : Listing
  /-- A directory whose names cannot be read. -/
  | locked (name : String) (rest : Listing) : Listing
  /-- A directory with its own listing. -/
  | dir (name : String) (children : Listing) (rest : Listing) : Listing
  deriving DecidableEq, Repr

/-- What lies at the root of a traversal. -/
inductive Tree where
  /-- `Lstat` on the root fails (for instance, the root does not exist). -/
  | missing : Tree
  /-- The root is not a directory. -/
  | file : Tree
  /-- The root is a directory whose names cannot be read. -/
  | locked : Tree
  /-- The root is a directory. -/
  | dir (children : Listing) : Tree
  deriving DecidableEq, Repr

/-- The error values the traversal passes around: `nil`, `filepath.SkipDir`
and the `fmt.Errorf("found")` of the callback. -/
inductive WalkErr where
  | none : WalkErr
  | skipDir : WalkErr
  | found : WalkErr
  deriving DecidableEq, Repr

/-- The part of `os.FileInfo` the callback reads. -/
structure FileInfo where
  name : String
  isDir : Bool
  deriving DecidableEq, Repr

/-- One application of the callback: the path it was given, the names added
below the root to reach the entry (kept for specification only), whether the
entry is a directory, whether an error was passed in, and what it returned. -/
structure Visit where
  path : String
  segs : List String
  isDir : Bool
  err : Bool
  ret : WalkErr
  deriving DecidableEq, Repr

/-- The variable `goPath` captured by the callback, and the log of visits. -/
structure WalkState where
  goPath : String
  visits : List Visit
  deriving DecidableEq, Repr

/-- The depth `walkDirLimited` computes for a directory: separators in the
visited path minus separators in the root. -/
def pathDepth (goos : String) (root path : String) : Int :=
  (countSep (PathSeparator goos) path : Int) - (countSep (PathSeparator goos) root : Int)

/-- The callback of `walkDirLimited`, as a function of the captured `goPath`.
`info` is absent only when `Lstat` failed, and then `err` is set. -/
def walkFn (goos : String) (root : String) (maxDepth : Int)
    (path : String) (info : Option FileInfo) (err : Bool) (goPath : String) :
    String × WalkErr :=
  if err ∨ goPath ≠ "" then (goPath, .none)
  else match info with
    | none => (goPath, .none)
    | some i =>
      if i.isDir then
        if pathDepth goos root path > maxDepth then (goPath, .skipDir)
        else (goPath, .none)
      else if i.name = "go.exe" ∨ i.name = "go" then (path, .found)
      else (goPath, .none)

/-- Apply the callback to an entry and log the visit. -/
def visit (goos : String) (root : String) (maxDepth : Int)
    (path : String) (segs : List String) (info : Option FileInfo) (err : Bool)
    (st : WalkState) : WalkState × WalkErr :=
  let r := walkFn goos root maxDepth path info err st.goPath
  (⟨r.1, st.visits ++ [⟨path, segs, (info.map FileInfo.isDir).getD false, err, r.2⟩]⟩, r.2)

/-- The loop of `filepath.walk` over the names of a directory `path`, with
the recursive call on each entry unfolded by kind of entry. An entry whose
`Lstat` fails is passed to the callback with the error; a file is passed to
the callback; a directory is passed to the callback (with the error of
`readDirNames`, if any) and, when both are clean, its names are walked. The
loop stops at the first error other than `SkipDir` on a directory. -/
def walkNames (goos : String) (root : String) (maxDepth : Int)
    (path : String) (segs : List String) : Listing → WalkState → WalkState × WalkErr
  | .nil, st => (st, .none)
  | .broken name rest, st =>
    let r := visit goos root maxDepth (Join goos [path, name]) (segs ++ [name]) none true st
    if r.2 ≠ .none ∧ r.2 ≠ .skipDir then r
    else walkNames goos root maxDepth path segs rest r.1
  | .file name rest, st =>
    let r := visit goos root maxDepth (Join goos [path, name]) (segs ++ [name])
      (some ⟨name, false⟩) false st
    if r.2 ≠ .none then r
    else walkNames goos root maxDepth path segs rest r.1
  | .locked name rest, st =>
    let r := visit goos root maxDepth (Join goos [path, name]) (segs ++ [name])
      (some ⟨name, true⟩) true st
    if r.2 ≠ .none ∧ r.2 ≠ .skipDir then r
    else walkNames goos root maxDepth path segs rest r.1
  | .dir name children rest, st =>
    let r1 := visit goos root maxDepth (Join goos [path, name]) (segs ++ [name])
      (some ⟨name, true⟩) false st
    let r := if r1.2 ≠ .none then r1
      else walkNames goos root maxDepth (Join goos [path, name]) (segs ++ [name]) children r1.1
    if r.2 ≠ .none ∧ r.2 ≠ .skipDir then r
    else walkNames goos root maxDepth path segs rest r.1

/-- `filepath.Walk(root, fn)` with the callback of `walkDirLimited`: the final
state of the callback. The error `Walk` returns is discarded by the caller. -/
def Walk (goos : String) (root : String) (maxDepth : Int) (t : Tree) : WalkState :=
  let st0 : WalkState := ⟨"", []⟩
  match t with
  | .missing => (visit goos root maxDepth root [] none true st0).1
  | .file => (visit goos root maxDepth root [] (some ⟨basename goos root, false⟩) false st0).1
  | .locked => (visit goos root maxDepth root [] (some ⟨basename goos root, true⟩) true st0).1
  | .dir children =>
    let r1 := visit goos root maxDepth root [] (some ⟨basename goos root, true⟩) false st0
    if r1.2 ≠ .none then r1.1
    else (walkNames goos root maxDepth root [] children r1.1).1

/-- The function `walkDirLimited(root, maxDepth)` on a host where the tree at
`root` is `t`: the path of the first entry named `go.exe` or `go` that is not
a directory, or the empty string. -/
def walkDirLimited (goos : String) (t : Tree) (root : String) (maxDepth : Int) : String :=
  (Walk goos root maxDepth t).goPath

/-- The visits `walkDirLimited(root, maxDepth)` makes, in order. -/
def walkVisits (goos : String) (t : Tree) (root : String) (maxDepth : Int) : List Visit :=
  (Walk goos root maxDepth t).visits

/-! ## Addresses in a tree -/

/-- The names the callback looks for. -/
def isTarget (name : String) : Bool :=
  name = "go.exe" ∨ name = "go"

/-- A name a directory can hold: not empty, not `.` or `..`, no separator. -/
def validName (goos : String) (name : String) : Bool :=
  name ≠ "" ∧ name ≠ "." ∧ name ≠ ".." ∧ PathSeparator goos ∉ name.data

/-- Every name in the listing, at any depth, is a valid name. -/
def Listing.validNames (goos : String) : Listing → Bool
  | .nil => true
  | .file name rest => validName goos name && rest.validNames goos
  | .broken name rest => validName goos name && rest.validNames goos
  | .locked name rest => validName goos name && rest.validNames goos
  | .dir name children rest =>
    validName goos name && children.validNames goos && rest.validNames goos

/-- Every name in the tree is a valid name. -/
def Tree.validNames (goos : String) : Tree → Bool
  | .dir children => children.validNames goos
  | _ => true

/-- The characters Windows reserves in file names. -/
def reservedChar (goos : String) (c : Char) : Bool :=
  goos = "windows" ∧ c ∈ ['<', '>', ':', Char.ofNat 34, '/', '\\', '|', '?', '*']

/-- A name a directory of the host can hold: a valid name that, on Windows,
holds no reserved character. -/
def entryName (goos : String) (name : String) : Bool :=
  validName goos name && name.data.all (fun c => !reservedChar goos c)

/-- Every name in the listing, at any depth, is a name a directory of the host
can hold. -/
def Listing.entryNames (goos : String) : Listing → Bool
  | .nil => true
  | .file name rest => entryName goos name && rest.entryNames goos
  | .broken name rest => entryName goos name && rest.entryNames goos
  | .locked name rest => entryName goos name && rest.entryNames goos
  | .dir name children rest =>
    entryName goos name && children.entryNames goos && rest.entryNames goos

/-- Every name in the tree is a name a directory of the host can hold. -/
def Tree.entryNames (goos : String) : Tree → Bool
  | .dir children => children.entryNames goos
  | _ => true

/-- No entry of the listing, at any depth, is unreadable. -/
def Listing.readable : Listing → Bool
  | .nil => true
  | .file _ rest => rest.readable
  | .broken _ _ => false
  | .locked _ _ => false
  | .dir _ children rest => children.readable && rest.readable

/-- The root exists and no entry of the tree is unreadable. -/
def Tree.readable : Tree → Bool
  | .file => true
  | .dir children => children.readable
  | _ => false

/-- The listing has an entry that is not a directory at the end of `segs`,
reached through readable directories only. -/
def Listing.fileAt : Listing → List String → Bool
  | .nil, _ => false
  | .file name rest, segs => decide (segs = [name]) || rest.fileAt segs
  | .broken _ rest, segs => rest.fileAt segs
  | .locked _ rest, segs => rest.fileAt segs
  | .dir name children rest, segs =>
    (match segs with
      | [] => false
      | s :: ss => decide (s = name) && children.fileAt ss) || rest.fileAt segs

/-- The tree has an entry that is not a directory `segs` below its root, every
directory on the way being readable. The empty `segs` is the root itself. -/
def Tree.fileAt : Tree → List String → Bool
  | .file, segs => decide (segs = [])
  | .dir children, segs => children.fileAt segs
  | _, _ => false

/-- The name of the entry `segs` below `root`. -/
def nameAt (goos : String) (root : String) (segs : List String) : String :=
  (segs.getLast?).getD (basename goos root)

/-- A file named `go.exe` or `go` lies `segs` below the root of the tree. -/
def Tree.targetAt (goos : String) (t : Tree) (root : String) (segs : List String) : Bool :=
  t.fileAt segs && isTarget (nameAt goos root segs)

/-- The path `filepath.Walk` gives the entry `segs` below `root`. -/
def pathOf (goos : String) (root : String) (segs : List String) : String :=
  segs.foldl (fun p name => Join goos [p, name]) root

/-- The listing with the unreadable entries taken out: an entry whose `Lstat`
fails is removed, a directory whose names cannot be read is left empty. -/
def Listing.eraseUnreadable : Listing → Listing
  | .nil => .nil
  | .file name rest => .file name rest.eraseUnreadable
  | .broken _ rest => rest.eraseUnreadable
  | .locked name rest => .dir name .nil rest.eraseUnreadable
  | .dir name children rest => .dir name children.eraseUnreadable rest.eraseUnreadable

/-- The tree with the unreadable entries below its root taken out. -/
def Tree.eraseUnreadable : Tree → Tree
  | .dir children => .dir children.eraseUnreadable
  | .locked => .dir .nil
  | t => t

/-- The volume name a cleaned root starts with: none, a drive letter with its
colon, or the host and the share of a network path. -/
inductive Volume where
  | none : Volume
  | drive (letter : Char) : Volume
  | unc (host share : String) : Volume
  deriving DecidableEq, Repr

/-- The volume name as it is written. -/
def Volume.chars : Volume → List Char
  | .none => []
  | .drive c => [c, ':']
  | .unc host share => '\\' :: '\\' :: (host.data ++ '\\' :: share.data)

/-- Volume names exist on Windows only; the host and the share of a network
path are names that do not start with a dot. -/
def Volume.wellFormed (goos : String) : Volume → Bool
  | .none => true
  | .drive c => decide (goos = "windows") && c.isAlpha
  | .unc host share =>
    decide (goos = "windows") && entryName goos host && entryName goos share &&
      decide (host.data.head? ≠ some '.') && decide (share.data.head? ≠ some '.')

/-- A root written in cleaned form that ends in a name: after the volume name
and, when the path is absolute, a separator, come `ups` elements `..` and then
the names, with single separators between them. -/
structure CleanRoot where
  volume : Volume
  absolute : Bool
  ups : Nat
  names : List String
  deriving DecidableEq, Repr

/-- The elements of a cleaned root: the `..` elements, then the names. -/
def CleanRoot.elems (r : CleanRoot) : List (List Char) :=
  List.replicate r.ups ['.', '.'] ++ r.names.map String.data

/-- The names are names a directory can hold and there is at least one; only a
relative path starts with `..` elements; a network path is absolute. -/
def CleanRoot.wellFormed (goos : String) (r : CleanRoot) : Bool :=
  decide (r.names ≠ []) && r.names.all (entryName goos) && r.volume.wellFormed goos &&
  (!r.absolute || decide (r.ups = 0)) &&
  match r.volume with
  | .unc _ _ => r.absolute
  | _ => true

/-- The path a cleaned root is written as. -/
def CleanRoot.path (goos : String) (r : CleanRoot) : String :=
  ⟨r.volume.chars ++ (if r.absolute then [PathSeparator goos] else []) ++
    joinSep (PathSeparator goos) r.elems⟩

/-- The path is written in cleaned form and ends in a name. -/
def IsCleanRoot (goos : String) (path : String) : Prop :=
  ∃ r : CleanRoot, r.wellFormed goos = true ∧ path = r.path goos

/-- A root for which every path of the traversal is one the rules above
cover: any root on a Unix host; on Windows a root written with backslashes
only, without a question mark, with a colon in its volume name only, and not
starting with `\\.` (so not a device path). -/
def plainRoot (goos : String) (root : String) : Bool :=
  goos = "windows" →
    '/' ∉ root.data ∧ '?' ∉ root.data ∧
    ':' ∉ root.data.drop (volumeNameLen goos root.data) ∧
    root.data.take 3 ≠ ['\\', '\\', '.']

/-! ## The host and the discovery strategies -/

/-- A process invocation as `exec.Command` builds it, with the variables added
to the inherited environment and the working directory. -/
structure Command where
  exe : String
  args : List String
  env : List String
  dir : String
  deriving DecidableEq, Repr

/-- The library calls the program makes, in the order it makes them. -/
inductive Op where
  /-- `exec.LookPath(file)`. -/
  | lookPath (file : String) : Op
  /-- `os.Getenv(key)`. -/
  | getenv (key : String) : Op
  /-- `os.Stat(path)`. -/
  | stat (path : String) : Op
  /-- `os.ReadDir(path)`. -/
  | readDir (path : String) : Op
  /-- `filepath.Walk(root, ...)` as started by `walkDirLimited(root, maxDepth)`. -/
  | walk (root : String) (maxDepth : Int) : Op
  /-- Text written to standard output. -/
  | print (text : String) : Op
  /-- `ReadString` on standard input. -/
  | readLine : Op
  /-- `os.Getwd()`. -/
  | getwd : Op
  /-- `filepath.Abs(path)`. -/
  | abs (path : String) : Op
  /-- `cmd.CombinedOutput()`. -/
  | run (cmd : Command) : Op
  deriving DecidableEq, Repr

/-- The machine the program runs on, as far as the program can observe it. -/
structure Host where
  /-- The constant `runtime.GOOS`. -/
  goos : String
  /-- `exec.LookPath`: the path found, or nothing when it returns an error. -/
  lookPath : String → Option String
  /-- `os.Getenv`. -/
  getenv : String → String
  /-- `os.Stat`: nothing when it returns an error, otherwise whether the entry
  is a directory. -/
  stat : String → Option Bool
  /-- `os.ReadDir`: the entries read (the error is ignored by the program). -/
  readDir : String → List FileInfo
  /-- The tree `filepath.Walk` finds at a root. -/
  tree : String → Tree
  /-- `os.Getwd` (the error is ignored by the program). -/
  getwd : String
  /-- `filepath.Abs`: the absolute path, or the error message. -/
  abs : String → Except String String
  /-- `cmd.CombinedOutput`: the output, and the error message if it failed. -/
  run : Command → String × Option String

/-- The loop `for _, p := range paths` of `findGo`: the first path on which
`os.Stat` succeeds, with the calls made. -/
def probePaths (h : Host) : List String → Option String × List Op
  | [] => (none, [])
  | p :: ps =>
    if (h.stat p).isSome then (some p, [.stat p])
    else
      let r := probePaths h ps
      (r.1, .stat p :: r.2)

/-- The drive roots `getDrives` tries, `A:\` to `Z:\`. -/
def driveRoots : List String :=
  "ABCDEFGHIJKLMNOPQRSTUVWXYZ".data.map (fun letter => String.singleton letter ++ ":\\")

/-- The function `getDrives`: the drive roots on which `os.Stat` succeeds. -/
def getDrives (h : Host) : List String × List Op :=
  (driveRoots.filter (fun d => (h.stat d).isSome), driveRoots.map Op.stat)

/-- The inner loop of `findGoInRootDirs` over the entries of drive `d`. -/
def probeEntries (h : Host) (d : String) : List FileInfo → Option String × List Op
  | [] => (none, [])
  | e :: es =>
    if e.isDir then
      let goPath := Join h.goos [d, e.name, "bin", "go.exe"]
      if (h.stat goPath).isSome then (some goPath, [.stat goPath])
      else
        let r := probeEntries h d es
        (r.1, .stat goPath :: r.2)
    else probeEntries h d es

/-- The outer loop of `findGoInRootDirs` over the drives. -/
def probeDrives (h : Host) : List String → Option String × List Op
  | [] => (none, [])
  | d :: ds =>
    let r := probeEntries h d (h.readDir d)
    match r.1 with
    | some p => (some p, .readDir d :: r.2)
    | none =>
      let r' := probeDrives h ds
      (r'.1, .readDir d :: r.2 ++ r'.2)

/-- The function `findGoInRootDirs`. -/
def findGoInRootDirs (h : Host) : String × List Op :=
  let drives := getDrives h
  let r := probeDrives h drives.1
  (r.1.getD "", drives.2 ++ r.2)

/-- The directories `findGoInDrives` scans on drive `d`. -/
def scanRoots (h : Host) (d : String) : List String :=
  [Join h.goos [d, "Go"], Join h.goos [d, "Program Files", "Go"],
    Join h.goos [d, "Program Files (x86)", "Go"]]

/-- The inner loop of `findGoInDrives` over the directories of one drive. -/
def scanPaths (h : Host) : List String → Option String × List Op
  | [] => (none, [])
  | p :: ps =>
    let goPath := walkDirLimited h.goos (h.tree p) p 4
    if goPath ≠ "" then (some goPath, [.walk p 4])
    else
      let r := scanPaths h ps
      (r.1, .walk p 4 :: r.2)

/-- The outer loop of `findGoInDrives` over the drives. -/
def scanDrives (h : Host) : List String → Option String × List Op
  | [] => (none, [])
  | d :: ds =>
    let r := scanPaths h (scanRoots h d)
    match r.1 with
    | some p => (some p, r.2)
    | none =>
      let r' := scanDrives h ds
      (r'.1, r.2 ++ r'.2)

/-- The function `findGoInDrives`. -/
def findGoInDrives (h : Host) : String × List Op :=
  let drives := getDrives h
  let r := scanDrives h drives.1
  (r.1.getD "", drives.2 ++ r.2)

/-- The install paths `findGo` probes on a Windows host. -/
def windowsPaths (h : Host) : List String :=
  ["C:\\Go\\bin\\go.exe", "C:\\Program Files\\Go\\bin\\go.exe",
    "C:\\Program Files (x86)\\Go\\bin\\go.exe",
    Join h.goos [h.getenv "USERPROFILE", "Go\\bin\\go.exe"]]

/-- The install paths `findGo` probes on other hosts. -/
def unixPaths : List String :=
  ["/usr/local/go/bin/go", "/usr/bin/go", "/usr/local/bin/go"]

/-- The function `findGo`: the path it returns and the calls it makes. -/
def findGo (h : Host) : String × List Op :=
  match h.lookPath "go" with
  | some p => (p, [.lookPath "go"])
  | none =>
    if h.goos = "windows" then
      let r2 := probePaths h (windowsPaths h)
      match r2.1 with
      | some p => (p, [.lookPath "go", .getenv "USERPROFILE"] ++ r2.2)
      | none =>
        let r3 := findGoInRootDirs h
        if r3.1 ≠ "" then (r3.1, [.lookPath "go", .getenv "USERPROFILE"] ++ r2.2 ++ r3.2)
        else
          let r4 := findGoInDrives h
          if r4.1 ≠ "" then
            (r4.1, [.lookPath "go", .getenv "USERPROFILE"] ++ r2.2 ++ r3.2 ++ r4.2)
          else ("", [.lookPath "go", .getenv "USERPROFILE"] ++ r2.2 ++ r3.2 ++ r4.2)
    else
      let r2 := probePaths h unixPaths
      match r2.1 with
      | some p => (p, .lookPath "go" :: r2.2)
      | none => ("", .lookPath "go" :: r2.2)

/-! ## The program -/

/-- `unicode.IsSpace`. -/
def isSpace (c : Char) : Bool :=
  c = '\t' ∨ c = '\n' ∨ c.toNat = 0x0B ∨ c.toNat = 0x0C ∨ c = '\r' ∨ c = ' ' ∨
  c.toNat = 0x85 ∨ c.toNat = 0xA0 ∨ c.toNat = 0x1680 ∨
  (0x2000 ≤ c.toNat ∧ c.toNat ≤ 0x200A) ∨ c.toNat = 0x2028 ∨ c.toNat = 0x2029 ∨
  c.toNat = 0x202F ∨ c.toNat = 0x205F ∨ c.toNat = 0x3000

/-- `strings.TrimSpace`. -/
def trimSpace (s : String) : String :=
  ⟨((s.data.dropWhile isSpace).reverse.dropWhile isSpace).reverse⟩

/-- `strings.HasSuffix`. -/
def hasSuffix (s suffix : String) : Bool :=
  suffix.data.isSuffixOf s.data

/-- One `reader.ReadString` on the lines still to come from standard input:
the line read (empty at the end of input) and the lines left. -/
def readString (input : List String) : String × List String :=
  match input with
  | [] => ("", [])
  | line :: rest => (line, rest)

/-- A trimmed answer, or the default when the answer is empty. -/
def orDefault (answer dflt : String) : String :=
  if trimSpace answer = "" then dflt else trimSpace answer

/-- The output file name `main` builds from the base name and the target. -/
def outputName (baseName goos goarch : String) : String :=
  let output := baseName ++ "-" ++ goos ++ "-" ++ goarch
  if goos = "windows" ∧ ¬ hasSuffix output ".exe" then output ++ ".exe" else output

/-- The deferred function of `main`, run on every way out. -/
def atExit (h : Host) : List Op :=
  if h.goos = "windows" then [.print "\n程序结束，按任意键退出...", .readLine] else []

/-- The command `main` runs. -/
def buildCommand (goExe projectPath goFilePath outputPath goos goarch : String) : Command :=
  ⟨goExe, ["build", "-ldflags", "-s -w", "-o", outputPath, goFilePath],
    ["CGO_ENABLED=0", "GOOS=" ++ goos, "GOARCH=" ++ goarch], projectPath⟩

/-- The part of `main` after the project path is resolved. -/
def build (h : Host) (goExe projectPath : String) (input : List String) : List Op :=
  let r1 := readString input
  let goFile := orDefault r1.1 "main.go"
  let goFilePath := Join h.goos [projectPath, goFile]
  let r2 := readString r1.2
  let goos := orDefault r2.1 "windows"
  let r3 := readString r2.2
  let goarch := orDefault r3.1 "amd64"
  let r4 := readString r3.2
  let baseName := orDefault r4.1 "main"
  let outputPath := Join h.goos [projectPath, outputName baseName goos goarch]
  let cmd := buildCommand goExe projectPath goFilePath outputPath goos goarch
  let res := h.run cmd
  [.print "请输入要编译的Go文件名(默认 main.go): ", .readLine,
    .print "请输入目标GOOS(例如 windows（默认） / linux / darwin): ", .readLine,
    .print "请输入目标GOARCH(例如 amd64（默认） / arm64): ", .readLine,
    .print "请输入编译后的基础文件名(默认 main): ", .readLine,
    .print "\n===== 开始编译 =====\n",
    .print ("项目路径: " ++ projectPath ++ "\n"),
    .print ("Go文件: " ++ goFilePath ++ "\n"),
    .print ("目标平台: " ++ goos ++ "/" ++ goarch ++ "\n"),
    .print ("输出文件: " ++ outputPath ++ "\n"),
    .print "====================\n\n",
    .run cmd,
    .print (res.1 ++ "\n"),
    match res.2 with
    | some e => .print ("编译失败: " ++ e ++ "\n")
    | none => .print ("\n编译完成，输出文件：" ++ outputPath ++ "\n")]

/-- The function `main` on a host and the lines typed on standard input: the
calls it makes and the text it prints, in order. -/
def main (h : Host) (input : List String) : List Op :=
  let banner : List Op :=
    [.print "=======================================\n",
      .print "Go源文件编译成可运行程序（支持windows、linux、macos）\n",
      .print "=======================================\n\n"]
  let found := findGo h
  if found.1 = "" then
    banner ++ found.2 ++
      [.print "未找到 Go 可执行文件，请先安装 Go 并确保 PATH 配置正确\n"] ++ atExit h
  else
    let r := readString input
    let projectPath := trimSpace r.1
    let pre := banner ++ found.2 ++
      [.print ("使用 Go 编译器路径: " ++ found.1 ++ "\n"),
        .print "请输入Go项目路径（留空表示当前目录）: ", .readLine]
    if projectPath = "" then
      pre ++ [.getwd] ++ build h found.1 h.getwd r.2 ++ atExit h
    else
      match h.abs projectPath with
      | .error e => pre ++ [.abs projectPath, .print ("路径无效: " ++ e ++ "\n")] ++ atExit h
      | .ok absPath => pre ++ [.abs projectPath] ++ build h found.1 absPath r.2 ++ atExit h

/-! ## The specification of discovery -/

/-- What a strategy that reports "no match" as the empty string matched. -/
def matchOf (s : String) : Option String :=
  if s = "" then none else some s

/-- The strategies of the specification in their order, each with its match
and the calls it makes: the search-path lookup, the probes of the install
paths, and on a Windows host the probe below the drive roots and the
bounded-depth scan. -/
def strategies (h : Host) : List (Option String × List Op) :=
  if h.goos = "windows" then
    [(h.lookPath "go", [.lookPath "go"]),
      ((probePaths h (windowsPaths h)).1,
        .getenv "USERPROFILE" :: (probePaths h (windowsPaths h)).2),
      (matchOf (findGoInRootDirs h).1, (findGoInRootDirs h).2),
      (matchOf (findGoInDrives h).1, (findGoInDrives h).2)]
  else
    [(h.lookPath "go", [.lookPath "go"]),
      ((probePaths h unixPaths).1, (probePaths h unixPaths).2)]

/-- The specification of discovery: the strategies run in order, the first
match is the result, and no strategy after it runs. -/
def firstMatch : List (Option String × List Op) → String × List Op
  | [] => ("", [])
  | (some p, ops) :: _ => (p, ops)
  | (none, ops) :: rest => ((firstMatch rest).1, ops ++ (firstMatch rest).2)

/-- The call is one of the calls toolchain discovery makes. -/
def Op.isDiscovery : Op → Bool
  | .lookPath _ => true
  | .getenv _ => true
  | .stat _ => true
  | .readDir _ => true
  | .walk _ _ => true
  | _ => false

/-! ## Notions used in the proofs -/

/-- The number of path separators in a path. -/
def countSeps (goos : String) (s : String) : Nat :=
  s.data.countP (IsPathSeparator goos)

/-- The number of elements of a path that are not empty. -/
def realElems (es : List (List Char)) : Nat :=
  (es.filter (fun e => e ≠ [])).length

/-- The elements `filepath.Clean` writes for a path, in order. -/
def cleanElems (rooted : Bool) (isSep : Char → Bool) (q : List Char) : List (List Char) :=
  ((splitSep isSep q).foldl (cleanStep rooted) []).reverse

/-- The elements of a cleaned root are names: not empty, not `.` or `..`,
without a separator and, on Windows, without a colon. -/
def NameChars (goos : String) (es : List (List Char)) : Prop :=
  ∀ e ∈ es, e ≠ [] ∧ e ≠ ['.'] ∧ e ≠ ['.', '.'] ∧
    ∀ c ∈ e, IsPathSeparator goos c = false ∧
      (goos = "windows" → c ≠ ':' ∧ c ≠ '\\' ∧ c ≠ '/')

/-- The elements are not empty and hold no separator and, on Windows, no
colon. -/
def ElemChars (goos : String) (es : List (List Char)) : Prop :=
  ∀ e ∈ es, e ≠ [] ∧
    ∀ c ∈ e, IsPathSeparator goos c = false ∧
      (goos = "windows" → c ≠ ':' ∧ c ≠ '\\' ∧ c ≠ '/')

/-- The last of `segs` is one of the names the callback looks for. -/
def endsInTarget (segs : List String) : Prop :=
  ∃ n, segs.getLast? = some n ∧ isTarget n = true

/-- What a walk over a listing returns when it starts with `goPath` empty:
either nothing was found and the walk went through, or it stopped at a file
named `go.exe` or `go`, whose path is `goPath`. -/
def WalkResult (goos root : String) (maxDepth : Int) (path : String) (l : Listing)
    (r : WalkState × WalkErr) : Prop :=
  (r.2 = .none ∧ r.1.goPath = "") ∨
  (r.2 = .found ∧ r.1.goPath ≠ "" ∧ ∃ rel, l.fileAt rel = true ∧ endsInTarget rel ∧
    r.1.goPath = pathOf goos path rel ∧
    (IsCleanRoot goos path → l.entryNames goos = true →
      pathDepth goos root path ≤ maxDepth →
      pathDepth goos root path + rel.length ≤ maxDepth + 1))

/-- Two results of the traversal that agree on `goPath` and on the error. -/
def SameOutcome (r r' : WalkState × WalkErr) : Prop :=
  r.1.goPath = r'.1.goPath ∧ r.2 = r'.2

/-- What holds of a visit below a cleaned root: its path is the one of its
segments, it lies at most one level below the depth limit, the depth computed
from its path is the number of its segments, and a readable directory is
answered with `SkipDir` exactly when that number exceeds the limit. -/
def GoodVisit (goos root : String) (maxDepth : Int) (v : Visit) : Prop :=
  v.path = pathOf goos root v.segs ∧ (v.segs.length : Int) ≤ maxDepth + 1 ∧
  pathDepth goos root v.path = v.segs.length ∧
  (v.isDir = true → v.err = false → (v.ret = .skipDir ↔ (v.segs.length : Int) > maxDepth))

/-- Every visit of `vs` is one of `vs0` or a good visit. -/
def VisitsOK (goos root : String) (maxDepth : Int) (vs0 vs : List Visit) : Prop :=
  ∀ v ∈ vs, v ∈ vs0 ∨ GoodVisit goos root maxDepth v

/-- What holds of the visit of the root itself. -/
def RootVisit (root : String) (maxDepth : Int) (v : Visit) : Prop :=
  v.path = root ∧ v.segs = [] ∧
  (v.isDir = true → v.err = false → (v.ret = .skipDir ↔ (0 : Int) > maxDepth))

/-! ## Example trees and hosts -/

/-- A Go installation: `VERSION`, `bin/go`, `bin/gofmt`. -/
def installTree : Tree :=
  .dir (.file "VERSION" (.dir "bin" (.file "go" (.file "gofmt" .nil)) .nil))

/-- The same installation seen with access errors: an entry that cannot be
examined and a directory that cannot be listed stand before `bin`. -/
def damagedTree : Tree :=
  .dir (.broken "LICENSE" (.locked "api" (.dir "bin" (.file "go" (.file "gofmt" .nil)) .nil)))

/-- A directory that holds the file `go` itself. -/
def flatTree : Tree :=
  .dir (.file "go" .nil)

/-- A directory whose only entry is the directory `bin`, which holds `go`. -/
def nestedTree : Tree :=
  .dir (.dir "bin" (.file "go" .nil) .nil)

/-- A directory whose only entry is the empty directory `go`. -/
def emptyDirTree : Tree :=
  .dir (.dir "go" .nil .nil)

/-- A directory whose only entry is the directory `pkg`, which holds the
empty directory `tool`. -/
def deepDirTree : Tree :=
  .dir (.dir "pkg" (.dir "tool" .nil .nil) .nil)

/-- A directory whose only entry is the directory `d`, which holds `go.exe`. -/
def slashRootTree : Tree :=
  .dir (.dir "d" (.file "go.exe" .nil) .nil)

/-- A Go installation on Windows: `go1.21\bin\go.exe` and `gofmt.exe`. -/
def sdkTree : Tree :=
  .dir (.dir "go1.21" (.dir "bin" (.file "go.exe" (.file "gofmt.exe" .nil)) .nil) .nil)

/-- A Windows installation seen with access errors: an entry that cannot be
examined and a directory that cannot be listed stand before `bin`. -/
def damagedSdkTree : Tree :=
  .dir (.broken "LICENSE" (.locked "api"
    (.dir "bin" (.file "go.exe" (.file "gofmt.exe" .nil)) .nil)))

/-- A Unix host on which the search path has no `go` and `/usr/local/go/bin/go`
is a directory. -/
def directoryHost : Host where
  goos := "linux"
  lookPath := fun _ => none
  getenv := fun _ => ""
  stat := fun p => if p = "/usr/local/go/bin/go" then some true else none
  readDir := fun _ => []
  tree := fun _ => .missing
  getwd := "/home/dev"
  abs := fun p => .ok p
  run := fun _ => ("", none)

/-- A Windows host on which only drive `D:` exists and Go is installed in
`D:\Go\go1.21`, outside the search path and below the directory the drive-root
probe looks into. -/
def scanHost : Host where
  goos := "windows"
  lookPath := fun _ => none
  getenv := fun _ => ""
  stat := fun p =>
    if p = "D:\\" ∨ p = "D:\\Go" ∨ p = "D:\\Go\\go1.21" ∨ p = "D:\\Go\\go1.21\\bin" then
      some true
    else if p = "D:\\Go\\go1.21\\bin\\go.exe" ∨ p = "D:\\Go\\go1.21\\bin\\gofmt.exe" then
      some false
    else none
  readDir := fun p => if p = "D:\\" then [⟨"Go", true⟩] else []
  tree := fun p => if p = "D:\\Go" then
    .dir (.dir "go1.21" (.dir "bin" (.file "go.exe" (.file "gofmt.exe" .nil)) .nil) .nil)
    else .missing
  getwd := "D:\\work"
  abs := fun p => .ok p
  run := fun _ => ("", none)

/-- A Unix host without Go, on which relative paths cannot be resolved. -/
def bareHost : Host where
  goos := "linux"
  lookPath := fun _ => none
  getenv := fun _ => ""
  stat := fun _ => none
  readDir := fun _ => []
  tree := fun _ => .missing
  getwd := ""
  abs := fun _ => .error "getwd: no such file or directory"
  run := fun _ => ("", none)

/-- A Unix host with `go` on the search path, on which relative paths cannot
be resolved because the working directory is gone. -/
def pathErrorHost : Host where
  goos := "linux"
  lookPath := fun f => if f = "go" then some "/usr/local/go/bin/go" else none
  getenv := fun _ => ""
  stat := fun p => if p = "/usr/local/go/bin/go" then some false else none
  readDir := fun _ => []
  tree := fun _ => .missing
  getwd := ""
  abs := fun _ => .error "getwd: no such file or directory"
  run := fun _ => ("", none)

/-! ## Lemmas on paths -/

/-- The path rules at work: slashes and volume names on Windows, the current
directory of a drive, network paths, and trailing separators. -/
theorem filepath_examples :
    Clean "windows" "C:/a/b" = "C:\\a\\b" ∧ Clean "windows" "C:" = "C:." ∧
    Clean "windows" "C:.\\a" = "C:a" ∧ Clean "windows" "C:\\" = "C:\\" ∧
    Clean "windows" "//fs01/share/x" = "\\\\fs01\\share\\x" ∧
    Clean "windows" "\\\\fs01\\share\\a\\..\\b\\" = "\\\\fs01\\share\\b" ∧
    Join "windows" ["C:.", "a"] = "C:a" ∧ Join "windows" ["C:", "a"] = "C:a" ∧
    Join "windows" ["C:\\", "Go"] = "C:\\Go" ∧
    Join "windows" ["C:/a/b", "d"] = "C:\\a\\b\\d" ∧
    Join "windows" ["\\\\fs01\\share", "a"] = "\\\\fs01\\share\\a" ∧
    Join "linux" ["/opt/", "go"] = "/opt/go" ∧ Join "linux" ["/", "a"] = "/a" ∧
    Join "linux" ["..", "a"] = "../a" ∧ Clean "linux" "/../a//b/./c/.." = "/a/b" ∧
    Clean "linux" "" = "." := by
  decide

theorem isPathSeparator_sep (goos : String) :
    IsPathSeparator goos (PathSeparator goos) = true := by
  unfold IsPathSeparator PathSeparator
  by_cases h : goos = "windows" <;> simp [h]

theorem isPathSeparator_dot (goos : String) : IsPathSeparator goos '.' = false := by
  unfold IsPathSeparator
  simp

theorem splitSep_ne_nil (isSep : Char → Bool) (l : List Char) : splitSep isSep l ≠ [] := by
  cases l with
  | nil => simp [splitSep]
  | cons c cs =>
    unfold splitSep
    split
    · simp
    · split <;> simp

theorem splitSep_append (isSep : Char → Bool) (s : Char) (hs : isSep s = true)
    (a b : List Char) :
    splitSep isSep (a ++ s :: b) = splitSep isSep a ++ splitSep isSep b := by
  induction a with
  | nil => simp [splitSep, hs]
  | cons c cs ih =>
    by_cases hc : isSep c = true
    · simp [splitSep, hc, ih]
    · simp only [List.cons_append, splitSep, hc, List.append_eq]
      rw [ih]
      cases hsp : splitSep isSep cs with
      | nil => exact absurd hsp (splitSep_ne_nil isSep cs)
      | cons e es => simp

theorem splitSep_of_no_sep (isSep : Char → Bool) (n : List Char)
    (h : ∀ c ∈ n, isSep c = false) : splitSep isSep n = [n] := by
  induction n with
  | nil => simp [splitSep]
  | cons c cs ih =>
    have hc : isSep c = false := h c (by simp)
    have hcs : ∀ d ∈ cs, isSep d = false := fun d hd => h d (by simp [hd])
    simp [splitSep, hc, ih hcs]

theorem splitSep_length (isSep : Char → Bool) (l : List Char) :
    (splitSep isSep l).length = l.countP isSep + 1 := by
  induction l with
  | nil => simp [splitSep]
  | cons c cs ih =>
    by_cases hc : isSep c = true
    · simp [splitSep, hc, ih]
    · have hcount : (c :: cs).countP isSep = cs.countP isSep := by
        simp [List.countP_cons, hc]
      rw [hcount, ← ih]
      cases hsp : splitSep isSep cs with
      | nil => exact absurd hsp (splitSep_ne_nil isSep cs)
      | cons e es => simp [splitSep, hc, hsp]

theorem no_sep_of_mem_splitSep (isSep : Char → Bool) (l e : List Char)
    (he : e ∈ splitSep isSep l) : ∀ c ∈ e, isSep c = false := by
  induction l generalizing e with
  | nil =>
    simp [splitSep] at he
    simp [he]
  | cons c cs ih =>
    by_cases hc : isSep c = true
    · simp only [splitSep, hc, if_true, List.mem_cons] at he
      rcases he with he | he
      · simp [he]
      · exact ih e he
    · cases hsp : splitSep isSep cs with
      | nil => exact absurd hsp (splitSep_ne_nil isSep cs)
      | cons x xs =>
        have he' : e = c :: x ∨ e ∈ xs := by
          simpa [splitSep, hc, hsp] using he
        rw [hsp] at ih
        rcases he' with he' | he'
        · subst he'
          intro d hd
          simp only [List.mem_cons] at hd
          rcases hd with hd | hd
          · rw [hd]
            simpa using hc
          · exact ih x (by simp) d hd
        · exact ih e (by simp [he'])

theorem joinSep_snoc (sep : Char) (out : List (List Char)) (n : List Char) (h : out ≠ []) :
    joinSep sep (out ++ [n]) = joinSep sep out ++ sep :: n := by
  induction out with
  | nil => exact absurd rfl h
  | cons e es ih =>
    cases es with
    | nil => simp [joinSep]
    | cons f fs =>
      have := ih (by simp)
      simp only [List.cons_append, joinSep, List.append_eq] at this ⊢
      rw [this]
      simp

theorem countP_joinSep (isSep : Char → Bool) (sep : Char) (hs : isSep sep = true)
    (out : List (List Char)) (h : ∀ e ∈ out, ∀ c ∈ e, isSep c = false) :
    (joinSep sep out).countP isSep = out.length - 1 := by
  induction out with
  | nil => simp [joinSep]
  | cons e es ih =>
    have he : e.countP isSep = 0 := by
      rw [List.countP_eq_zero]
      intro c hc
      simp [h e (by simp) c hc]
    cases es with
    | nil => simp [joinSep, he]
    | cons f fs =>
      have := ih (fun x hx => h x (by simp [hx]))
      simp only [joinSep, List.countP_append, List.countP_cons_of_pos _ _ hs, he, this]
      simp

theorem joinSep_ne_nil (sep : Char) (out : List (List Char)) (h : out ≠ [])
    (hne : ∀ e ∈ out, e ≠ []) : joinSep sep out ≠ [] := by
  cases out with
  | nil => exact absurd rfl h
  | cons e es =>
    have he : e ≠ [] := hne e (by simp)
    cases es with
    | nil => simpa [joinSep] using he
    | cons f fs => simp [joinSep, he]

theorem splitSep_joinSep (isSep : Char → Bool) (sep : Char) (hs : isSep sep = true)
    (elems : List (List Char)) (hne : elems ≠ [])
    (h : ∀ e ∈ elems, ∀ c ∈ e, isSep c = false) :
    splitSep isSep (joinSep sep elems) = elems := by
  induction elems with
  | nil => exact absurd rfl hne
  | cons e es ih =>
    cases es with
    | nil => simpa [joinSep] using splitSep_of_no_sep isSep e (h e (by simp))
    | cons f fs =>
      have := ih (by simp) (fun x hx => h x (by simp [hx]))
      simp only [joinSep] at this ⊢
      rw [splitSep_append isSep sep hs, splitSep_of_no_sep isSep e (h e (by simp)), this]
      simp

theorem cleanStep_length (rooted : Bool) (out : List (List Char)) (e : List Char) :
    (cleanStep rooted out e).length ≤ out.length + realElems [e] := by
  unfold cleanStep realElems
  by_cases h1 : e = []
  · simp [h1]
  · by_cases h2 : e = ['.']
    · simp [h2]
    · by_cases h3 : e = ['.', '.']
      · subst h3
        cases out with
        | nil => cases rooted <;> simp
        | cons top rest =>
          by_cases ht : top = ['.', '.'] <;> simp [ht]
          omega
      · simp [h1, h2, h3]

theorem foldl_cleanStep_length (rooted : Bool) (es : List (List Char)) (out : List (List Char)) :
    (es.foldl (cleanStep rooted) out).length ≤ out.length + realElems es := by
  induction es generalizing out with
  | nil => simp [realElems]
  | cons e es ih =>
    have h1 := ih (cleanStep rooted out e)
    have h2 := cleanStep_length rooted out e
    have h3 : realElems (e :: es) = realElems [e] + realElems es := by
      unfold realElems
      by_cases he : e = []
      · simp [he, List.filter_cons]
      · simp [he, List.filter_cons]
        omega
    simp only [List.foldl_cons]
    omega

theorem realElems_le (es : List (List Char)) : realElems es ≤ es.length := by
  unfold realElems
  exact List.length_filter_le _ _

theorem cleanStep_mem (rooted : Bool) (out : List (List Char)) (e x : List Char)
    (hx : x ∈ cleanStep rooted out e) : x ∈ out ∨ (x = e ∧ e ≠ []) := by
  unfold cleanStep at hx
  by_cases h1 : e = []
  · simp [h1] at hx; exact Or.inl hx
  · by_cases h2 : e = ['.']
    · simp [h2] at hx; exact Or.inl hx
    · by_cases h3 : e = ['.', '.']
      · subst h3
        cases out with
        | nil =>
          cases rooted
          · simp at hx
            exact Or.inr ⟨hx, by simp⟩
          · simp at hx
        | cons top rest =>
          by_cases ht : top = ['.', '.']
          · simp [ht] at hx
            rcases hx with hx | hx
            · exact Or.inr ⟨hx, by simp⟩
            · exact Or.inl (by simp [hx])
          · simp [ht] at hx
            exact Or.inl (by simp [hx])
      · simp [h1, h2, h3] at hx
        rcases hx with hx | hx
        · exact Or.inr ⟨hx, h1⟩
        · exact Or.inl hx

theorem foldl_cleanStep_mem (rooted : Bool) (es : List (List Char)) (out : List (List Char))
    (x : List Char) (hx : x ∈ es.foldl (cleanStep rooted) out) :
    x ∈ out ∨ (x ∈ es ∧ x ≠ []) := by
  induction es generalizing out with
  | nil => exact Or.inl hx
  | cons e es ih =>
    rcases ih _ hx with h | h
    · rcases cleanStep_mem rooted out e x h with h | ⟨h, hne⟩
      · exact Or.inl h
      · exact Or.inr ⟨by simp [h], h ▸ hne⟩
    · exact Or.inr ⟨by simp [h.1], h.2⟩

theorem foldl_cleanStep_names (rooted : Bool) (es : List (List Char))
    (h : ∀ e ∈ es, e ≠ [] ∧ e ≠ ['.'] ∧ e ≠ ['.', '.']) (out : List (List Char)) :
    es.foldl (cleanStep rooted) out = es.reverse ++ out := by
  induction es generalizing out with
  | nil => rfl
  | cons e es ih =>
    obtain ⟨h1, h2, h3⟩ := h e (by simp)
    rw [List.foldl_cons, ih (fun x hx => h x (by simp [hx]))]
    simp [cleanStep, h1, h2, h3]

theorem cleanBody_rooted (isSep : Char → Bool) (sep c : Char) (q : List Char)
    (h : isSep c = true) :
    cleanBody isSep sep (c :: q) = sep :: joinSep sep (cleanElems true isSep (c :: q)) := by
  simp [cleanBody, cleanElems, h]

theorem cleanBody_unrooted (isSep : Char → Bool) (sep : Char) (q : List Char)
    (h : ∀ c, q.head? = some c → isSep c = false) :
    cleanBody isSep sep q =
      if cleanElems false isSep q = [] then ['.']
      else joinSep sep (cleanElems false isSep q) := by
  cases q with
  | nil => simp [cleanBody, cleanElems]
  | cons c cs =>
    have hc : isSep c = false := h c rfl
    simp [cleanBody, cleanElems, hc]

theorem cleanElems_mem (rooted : Bool) (isSep : Char → Bool) (q e : List Char)
    (he : e ∈ cleanElems rooted isSep q) : e ≠ [] ∧ ∀ c ∈ e, isSep c = false := by
  rcases foldl_cleanStep_mem _ _ _ e (List.mem_reverse.mp he) with h | h
  · simp at h
  · exact ⟨h.2, no_sep_of_mem_splitSep isSep q e h.1⟩

theorem cleanElems_length (rooted : Bool) (isSep : Char → Bool) (q : List Char) :
    (cleanElems rooted isSep q).length ≤ realElems (splitSep isSep q) := by
  have := foldl_cleanStep_length rooted (splitSep isSep q) []
  simpa [cleanElems] using this

theorem cleanBody_ne_nil (isSep : Char → Bool) (sep : Char) (q : List Char) :
    cleanBody isSep sep q ≠ [] := by
  cases q with
  | nil => simp [cleanBody, splitSep, cleanStep]
  | cons c cs =>
    by_cases hc : isSep c = true
    · simp [cleanBody_rooted isSep sep c cs hc]
    · rw [cleanBody_unrooted isSep sep _ (fun d hd => by
        simp only [List.head?_cons, Option.some.injEq] at hd
        rw [← hd]
        simpa using hc)]
      split
      · simp
      · rename_i hout
        exact joinSep_ne_nil sep _ hout (fun e he => (cleanElems_mem _ isSep _ e he).1)

theorem countP_cleanBody_le (isSep : Char → Bool) (sep : Char) (hs : isSep sep = true)
    (hdot : isSep '.' = false) (q : List Char) :
    (cleanBody isSep sep q).countP isSep ≤ q.countP isSep := by
  cases q with
  | nil => simp [cleanBody, splitSep, cleanStep, hdot]
  | cons c cs =>
    by_cases hc : isSep c = true
    · rw [cleanBody_rooted isSep sep c cs hc, List.countP_cons_of_pos _ _ hs,
        countP_joinSep isSep sep hs _ (fun e he => (cleanElems_mem _ isSep _ e he).2),
        List.countP_cons_of_pos _ _ hc]
      have hlen := cleanElems_length true isSep (c :: cs)
      have hsplit : splitSep isSep (c :: cs) = [] :: splitSep isSep cs := by
        simp [splitSep, hc]
      have hreal : realElems ([] :: splitSep isSep cs) = realElems (splitSep isSep cs) := by
        simp [realElems]
      rw [hsplit, hreal] at hlen
      have h1 := realElems_le (splitSep isSep cs)
      have h2 := splitSep_length isSep cs
      omega
    · rw [cleanBody_unrooted isSep sep _ (fun d hd => by
        simp only [List.head?_cons, Option.some.injEq] at hd
        rw [← hd]
        simpa using hc)]
      split
      · simp [hdot]
      · rw [countP_joinSep isSep sep hs _ (fun e he => (cleanElems_mem _ isSep _ e he).2)]
        have hlen := cleanElems_length false isSep (c :: cs)
        have h1 := realElems_le (splitSep isSep (c :: cs))
        have h2 := splitSep_length isSep (c :: cs)
        omega

theorem countP_fromSlash (goos : String) (p : List Char) :
    (fromSlash goos p).countP (IsPathSeparator goos) = p.countP (IsPathSeparator goos) := by
  unfold fromSlash
  by_cases hw : goos = "windows"
  · simp only [hw, if_true, List.countP_map]
    apply List.countP_congr
    intro c _
    by_cases hc : c = '/'
    · simp [IsPathSeparator, hc]
    · simp [IsPathSeparator, hc]
  · simp [hw]

theorem volumeNameLen_nil (goos : String) : volumeNameLen goos [] = 0 := by
  simp [volumeNameLen]

theorem cleanChars_ne_nil (goos : String) (p : List Char) : cleanChars goos p ≠ [] := by
  unfold cleanChars
  simp only
  split
  · split
    · rename_i h
      have hp : p ≠ [] := by
        intro e
        rw [e, volumeNameLen_nil] at h
        simp at h
      intro e
      apply hp
      unfold fromSlash at e
      split at e
      · simpa using e
      · exact e
    · simp
  · intro e
    exact cleanBody_ne_nil _ _ _ (List.append_eq_nil.mp e).2

theorem countP_cleanChars_le (goos : String) (p : List Char) :
    (cleanChars goos p).countP (IsPathSeparator goos) ≤ p.countP (IsPathSeparator goos) := by
  unfold cleanChars
  simp only
  split
  · split
    · rw [countP_fromSlash]
    · simp [isPathSeparator_dot]
  · rw [List.countP_append, countP_fromSlash]
    have h1 := countP_cleanBody_le (IsPathSeparator goos) (PathSeparator goos)
      (isPathSeparator_sep goos) (isPathSeparator_dot goos) (p.drop (volumeNameLen goos p))
    have h2 : p.countP (IsPathSeparator goos) =
        (p.take (volumeNameLen goos p)).countP (IsPathSeparator goos) +
        (p.drop (volumeNameLen goos p)).countP (IsPathSeparator goos) := by
      rw [← List.countP_append, List.take_append_drop]
    omega

theorem data_ne_nil (s : String) (h : s ≠ "") : s.data ≠ [] := by
  intro e
  apply h
  apply String.ext
  simpa using e

theorem validName_spec (goos : String) (n : String) (h : validName goos n = true) :
    n ≠ "" ∧ n.data ≠ [] ∧ n.data ≠ ['.'] ∧ n.data ≠ ['.', '.'] ∧
      PathSeparator goos ∉ n.data := by
  simp only [validName, decide_eq_true_eq] at h
  obtain ⟨h1, h2, h3, h4⟩ := h
  refine ⟨h1, data_ne_nil n h1, ?_, ?_, h4⟩
  · intro e
    exact h2 (String.ext (by simpa using e))
  · intro e
    exact h3 (String.ext (by simpa using e))

theorem entryName_valid (goos : String) (n : String) (h : entryName goos n = true) :
    validName goos n = true := by
  simp only [entryName, Bool.and_eq_true] at h
  exact h.1

theorem entryName_chars (goos : String) (n : String) (h : entryName goos n = true) :
    ∀ c ∈ n.data, IsPathSeparator goos c = false ∧
      (goos = "windows" → c ≠ ':' ∧ c ≠ '\\' ∧ c ≠ '/') := by
  simp only [entryName, Bool.and_eq_true, List.all_eq_true, Bool.not_eq_true'] at h
  obtain ⟨hv, hr⟩ := h
  obtain ⟨-, -, -, -, hsep⟩ := validName_spec goos n hv
  intro c hc
  have hrc := hr c hc
  by_cases hw : goos = "windows"
  · simp only [reservedChar, hw, true_and, decide_eq_false_iff_not, List.mem_cons,
      List.mem_singleton, not_or, List.not_mem_nil, or_false] at hrc
    obtain ⟨-, -, h3, -, h5, h6, -⟩ := hrc
    refine ⟨?_, fun _ => ⟨h3, h6, h5⟩⟩
    simp [IsPathSeparator, h5, h6]
  · refine ⟨?_, fun e => absurd e hw⟩
    have hne : c ≠ '/' := by
      intro e
      apply hsep
      rw [e] at hc
      simpa [PathSeparator, hw] using hc
    simp [IsPathSeparator, hw, hne]

theorem Join_pair_unix (goos : String) (hw : goos ≠ "windows") (p n : String) :
    Join goos [p, n] =
      if p = "" then (if n = "" then "" else Clean goos n)
      else Clean goos ⟨p.data ++ PathSeparator goos :: n.data⟩ := by
  by_cases hp : p = ""
  · by_cases hn : n = ""
    · simp [Join, joinUnix, hw, hp, hn]
    · simp [Join, joinUnix, hw, hp, hn, joinSep]
  · simp [Join, joinUnix, hw, hp, joinSep]

theorem Join_pair_windows (p n : String) :
    Join "windows" [p, n] =
      if joinStep p.data n.data = [] then ""
      else Clean "windows" ⟨joinStep p.data n.data⟩ := by
  simp [Join, joinStep]

theorem joinStep_ne_nil (p n : List Char) (hn : n ≠ []) : joinStep p n ≠ [] := by
  unfold joinStep
  cases hl : p.getLast? with
  | none => simpa using hn
  | some last =>
    have hp : p ≠ [] := by
      intro e
      rw [e] at hl
      simp at hl
    simp only
    split
    · simp [hp]
    · split <;> simp [hp]

theorem Clean_ne_empty (goos : String) (s : String) : Clean goos s ≠ "" := by
  intro e
  have := congrArg String.data e
  exact cleanChars_ne_nil goos s.data this

theorem Join_ne_empty (goos : String) (p n : String) (hn : n ≠ "") :
    Join goos [p, n] ≠ "" := by
  by_cases hw : goos = "windows"
  · subst hw
    rw [Join_pair_windows, if_neg (joinStep_ne_nil _ _ (data_ne_nil n hn))]
    exact Clean_ne_empty _ _
  · rw [Join_pair_unix goos hw]
    by_cases hp : p = ""
    · simp only [hp, hn, if_true, if_false]
      exact Clean_ne_empty _ _
    · simp only [hp, if_false]
      exact Clean_ne_empty _ _

theorem countP_joinStep_le (p n : List Char)
    (hn : ∀ c ∈ n, IsPathSeparator "windows" c = false) :
    (joinStep p n).countP (IsPathSeparator "windows") ≤
      p.countP (IsPathSeparator "windows") + 1 := by
  have h0 : n.countP (IsPathSeparator "windows") = 0 := by
    rw [List.countP_eq_zero]
    intro c hc
    simp [hn c hc]
  have h1 : (n.dropWhile isSlash).countP (IsPathSeparator "windows") = 0 := by
    rw [List.countP_eq_zero]
    intro c hc
    simp [hn c ((List.dropWhile_sublist _).subset hc)]
  unfold joinStep
  cases p.getLast? with
  | none => simp [h0]
  | some last =>
    simp only
    split
    · simp [List.countP_append, h1]
    · split
      · simp [List.countP_append, h0]
      · simp [List.countP_append, List.countP_cons, h0, IsPathSeparator]

theorem countSeps_Join_le (goos : String) (p n : String) (h : entryName goos n = true) :
    countSeps goos (Join goos [p, n]) ≤ countSeps goos p + 1 := by
  have hchars := entryName_chars goos n h
  have hn : n ≠ "" := (validName_spec goos n (entryName_valid goos n h)).1
  have h0 : n.data.countP (IsPathSeparator goos) = 0 := by
    rw [List.countP_eq_zero]
    intro c hc
    simp [(hchars c hc).1]
  by_cases hw : goos = "windows"
  · subst hw
    rw [Join_pair_windows, if_neg (joinStep_ne_nil _ _ (data_ne_nil n hn))]
    have h1 := countP_cleanChars_le "windows" (joinStep p.data n.data)
    have h2 := countP_joinStep_le p.data n.data (fun c hc => (hchars c hc).1)
    simp only [countSeps, Clean]
    omega
  · rw [Join_pair_unix goos hw]
    by_cases hp : p = ""
    · simp only [hp, hn, if_true, if_false, countSeps, Clean]
      have := countP_cleanChars_le goos n.data
      omega
    · simp only [hp, if_false, countSeps, Clean]
      have := countP_cleanChars_le goos (p.data ++ PathSeparator goos :: n.data)
      simp only [List.countP_append, List.countP_cons_of_pos _ _ (isPathSeparator_sep goos),
        h0] at this
      omega

theorem countSep_le_countSeps (goos : String) (s : String) :
    countSep (PathSeparator goos) s ≤ countSeps goos s := by
  unfold countSep countSeps List.count
  apply List.countP_mono_left
  intro c _ hc
  have : c = PathSeparator goos := by simpa using hc
  rw [this]
  exact isPathSeparator_sep goos

theorem countSeps_plainRoot (goos : String) (root : String) (h : plainRoot goos root = true) :
    countSeps goos root = countSep (PathSeparator goos) root := by
  unfold countSep countSeps List.count
  apply List.countP_congr
  intro c hc
  simp only [plainRoot, decide_eq_true_eq] at h
  by_cases hw : goos = "windows"
  · have hne : c ≠ '/' := fun e => (h hw).1 (e ▸ hc)
    simp [IsPathSeparator, PathSeparator, hw, hne]
  · simp [IsPathSeparator, PathSeparator, hw]

theorem mem_joinSep (sep : Char) (es : List (List Char)) (c : Char)
    (h : c ∈ joinSep sep es) : c = sep ∨ ∃ e ∈ es, c ∈ e := by
  induction es with
  | nil => simp [joinSep] at h
  | cons e es ih =>
    cases es with
    | nil => exact Or.inr ⟨e, by simp, by simpa [joinSep] using h⟩
    | cons f fs =>
      simp only [joinSep, List.mem_append, List.mem_cons] at h
      rcases h with h | h | h
      · exact Or.inr ⟨e, by simp, h⟩
      · exact Or.inl h
      · rcases ih h with h' | ⟨x, hx, hc⟩
        · exact Or.inl h'
        · exact Or.inr ⟨x, by simp [hx], hc⟩

theorem joinSep_head (sep : Char) (a : Char) (e : List Char) (es : List (List Char)) :
    ∃ t, joinSep sep ((a :: e) :: es) = a :: t := by
  cases es with
  | nil => exact ⟨e, rfl⟩
  | cons f fs => exact ⟨e ++ sep :: joinSep sep (f :: fs), rfl⟩

theorem joinSep_last (sep : Char) (es : List (List Char)) (e : List Char) (z : Char) :
    ∃ x, joinSep sep (es ++ [e ++ [z]]) = x ++ [z] := by
  cases es with
  | nil => exact ⟨e, rfl⟩
  | cons f fs =>
    refine ⟨joinSep sep (f :: fs) ++ sep :: e, ?_⟩
    rw [joinSep_snoc sep (f :: fs) _ (by simp)]
    simp

theorem volumeNameLen_unix (goos : String) (hw : goos ≠ "windows") (p : List Char) :
    volumeNameLen goos p = 0 := by
  simp [volumeNameLen, hw]

theorem volumeNameLen_one (x : Char) : volumeNameLen "windows" [x] = 0 := by
  simp [volumeNameLen]

theorem volumeNameLen_two (x y : Char) (rest : List Char) (hy : y ≠ ':')
    (h : IsPathSeparator "windows" x = false ∨ IsPathSeparator "windows" y = false) :
    volumeNameLen "windows" (x :: y :: rest) = 0 := by
  rcases h with h | h <;> simp [volumeNameLen, hy, h]

theorem volumeNameLen_drive (c : Char) (rest : List Char) (hc : c.isAlpha = true) :
    volumeNameLen "windows" (c :: ':' :: rest) = 2 := by
  simp [volumeNameLen, hc]

theorem nameChars_of_all (goos : String) (names : List String)
    (h : names.all (entryName goos) = true) : NameChars goos (names.map String.data) := by
  intro e he
  simp only [List.mem_map] at he
  obtain ⟨n, hn, rfl⟩ := he
  have hen : entryName goos n = true := by
    simp only [List.all_eq_true] at h
    exact h n hn
  obtain ⟨-, h2, h3, h4, -⟩ := validName_spec goos n (entryName_valid goos n hen)
  exact ⟨h2, h3, h4, entryName_chars goos n hen⟩

theorem elemChars_ups (goos : String) (ups : Nat) (es : List (List Char))
    (H : NameChars goos es) : ElemChars goos (List.replicate ups ['.', '.'] ++ es) := by
  intro e he
  rcases List.mem_append.mp he with he | he
  · rw [List.eq_of_mem_replicate he]
    refine ⟨by simp, fun c hc => ?_⟩
    have hc' : c = '.' := by simpa using hc
    subst hc'
    exact ⟨isPathSeparator_dot goos, fun _ => by decide⟩
  · exact ⟨(H e he).1, (H e he).2.2.2⟩

theorem foldl_cleanStep_ups (k j : Nat) :
    (List.replicate k ['.', '.']).foldl (cleanStep false) (List.replicate j ['.', '.']) =
      List.replicate (k + j) ['.', '.'] := by
  induction k generalizing j with
  | zero => simp
  | succ k ih =>
    have hstep : cleanStep false (List.replicate j ['.', '.']) ['.', '.'] =
        List.replicate (j + 1) ['.', '.'] := by
      cases j with
      | zero => simp [cleanStep]
      | succ j => simp [cleanStep, List.replicate_succ]
    rw [List.replicate_succ, List.foldl_cons, hstep, ih]
    congr 1
    omega

theorem cleanBody_elems (goos : String) (ups : Nat) (es : List (List Char)) (hne : es ≠ [])
    (H : NameChars goos es) (absolute : Bool) (habs : absolute = true → ups = 0) :
    cleanBody (IsPathSeparator goos) (PathSeparator goos)
        ((if absolute then [PathSeparator goos] else []) ++
          joinSep (PathSeparator goos) (List.replicate ups ['.', '.'] ++ es)) =
      (if absolute then [PathSeparator goos] else []) ++
        joinSep (PathSeparator goos) (List.replicate ups ['.', '.'] ++ es) := by
  have hs := isPathSeparator_sep goos
  have hE := elemChars_ups goos ups es H
  have hne' : List.replicate ups ['.', '.'] ++ es ≠ [] := by simp [hne]
  have hsplit := splitSep_joinSep (IsPathSeparator goos) (PathSeparator goos) hs _ hne'
    (fun e he c hc => ((hE e he).2 c hc).1)
  have hnames : ∀ rooted out, es.foldl (cleanStep rooted) out = es.reverse ++ out := fun rooted =>
    foldl_cleanStep_names rooted es (fun e he => ⟨(H e he).1, (H e he).2.1, (H e he).2.2.1⟩)
  cases absolute with
  | true =>
    have hups : ups = 0 := habs rfl
    subst hups
    simp only [if_true, List.singleton_append, List.replicate_zero, List.nil_append] at hsplit ⊢
    rw [cleanBody_rooted _ _ _ _ hs]
    simp [cleanElems, splitSep, hs, hsplit, cleanStep, hnames]
  | false =>
    simp only [Bool.false_eq_true, if_false, List.nil_append]
    have hhead : ∀ c, (joinSep (PathSeparator goos)
        (List.replicate ups ['.', '.'] ++ es)).head? = some c →
        IsPathSeparator goos c = false := by
      intro c hc
      obtain ⟨e, es', hes⟩ := List.exists_cons_of_ne_nil hne'
      rw [hes] at hc hE
      cases e with
      | nil => exact absurd rfl (hE [] (by simp)).1
      | cons a e' =>
        obtain ⟨t, ht⟩ := joinSep_head (PathSeparator goos) a e' es'
        rw [ht] at hc
        simp only [List.head?_cons, Option.some.injEq] at hc
        rw [← hc]
        exact ((hE (a :: e') (by simp)).2 a (by simp)).1
    have hfold : (List.replicate ups ['.', '.'] ++ es).foldl (cleanStep false) [] =
        (List.replicate ups ['.', '.'] ++ es).reverse := by
      have h0 := foldl_cleanStep_ups ups 0
      simp only [List.replicate_zero, Nat.add_zero] at h0
      rw [List.foldl_append, h0, hnames]
      simp
    rw [cleanBody_unrooted _ _ _ hhead]
    simp only [cleanElems, hsplit, hfold, List.reverse_reverse, hne', if_false]

theorem sepIndex_append (isSep : Char → Bool) (e : List Char) (s : Char) (r : List Char)
    (he : ∀ c ∈ e, isSep c = false) (hs : isSep s = true) :
    sepIndex isSep (e ++ s :: r) = some e.length := by
  induction e with
  | nil => simp [sepIndex, hs]
  | cons a e ih =>
    have ha : isSep a = false := he a (by simp)
    simp [sepIndex, ha, ih (fun c hc => he c (by simp [hc]))]

theorem volumeNameLen_sep_sep (rest : List Char) :
    volumeNameLen "windows" ('\\' :: '\\' :: rest) =
      uncLen (IsPathSeparator "windows") ('\\' :: '\\' :: rest) := by
  have hsep : IsPathSeparator "windows" '\\' = true := by decide
  simp [volumeNameLen, hsep]

theorem volumeNameLen_unc (host share rest : List Char)
    (hh : ∀ c ∈ host, IsPathSeparator "windows" c = false)
    (hsh : ∀ c ∈ share, IsPathSeparator "windows" c = false) :
    volumeNameLen "windows" ('\\' :: '\\' :: (host ++ '\\' :: share) ++ '\\' :: rest) =
      ('\\' :: '\\' :: (host ++ '\\' :: share)).length := by
  have hsep : IsPathSeparator "windows" '\\' = true := by decide
  have h1 : sepIndex (IsPathSeparator "windows") (host ++ '\\' :: (share ++ '\\' :: rest)) =
      some host.length := sepIndex_append _ host '\\' _ hh hsep
  have h2 : sepIndex (IsPathSeparator "windows") (share ++ '\\' :: rest) = some share.length :=
    sepIndex_append _ share '\\' _ hsh hsep
  have hdrop : List.drop (host.length + 1) (host ++ '\\' :: (share ++ '\\' :: rest)) =
      share ++ '\\' :: rest := by
    rw [List.drop_append_eq_append_drop]
    simp
  have hdrop' : List.drop (2 + host.length + 1)
      ('\\' :: '\\' :: (host ++ '\\' :: (share ++ '\\' :: rest))) = share ++ '\\' :: rest := by
    have : 2 + host.length + 1 = (host.length + 1) + 1 + 1 := by omega
    rw [this, List.drop_succ_cons, List.drop_succ_cons, hdrop]
  have hp : '\\' :: '\\' :: (host ++ '\\' :: share) ++ '\\' :: rest =
      '\\' :: '\\' :: (host ++ '\\' :: (share ++ '\\' :: rest)) := by simp
  rw [hp, volumeNameLen_sep_sep]
  have hdrop2 : List.drop 2 ('\\' :: '\\' :: (host ++ '\\' :: (share ++ '\\' :: rest))) =
      host ++ '\\' :: (share ++ '\\' :: rest) := rfl
  unfold uncLen
  rw [hdrop2, h1]
  simp only
  rw [hdrop', h2]
  simp only [List.length_cons, List.length_append]
  omega

theorem cleanChars_cleanRoot (goos : String) (r : CleanRoot) (h : r.wellFormed goos = true) :
    cleanChars goos (r.path goos).data = (r.path goos).data := by
  simp only [CleanRoot.wellFormed, Bool.and_eq_true, decide_eq_true_eq, Bool.or_eq_true,
    Bool.not_eq_true'] at h
  obtain ⟨⟨⟨⟨hne, hall⟩, hvol⟩, habs⟩, hunc⟩ := h
  have hne' : r.names.map String.data ≠ [] := by simpa using hne
  have H := nameChars_of_all goos r.names hall
  have habs' : r.absolute = true → r.ups = 0 := by
    intro ha
    rcases habs with h | h
    · rw [ha] at h
      exact absurd h (by simp)
    · exact h
  have hbody := cleanBody_elems goos r.ups _ hne' H r.absolute habs'
  have hE := elemChars_ups goos r.ups _ H
  have hene : List.replicate r.ups ['.', '.'] ++ r.names.map String.data ≠ [] := by simp [hne']
  have hbody_ne : (if r.absolute then [PathSeparator goos] else []) ++
      joinSep (PathSeparator goos) (List.replicate r.ups ['.', '.'] ++ r.names.map String.data)
        ≠ [] := by
    intro e
    rw [e] at hbody
    exact cleanBody_ne_nil _ _ _ hbody
  cases hd : r.volume with
  | none =>
    simp only [CleanRoot.path, CleanRoot.elems, hd, Volume.chars, List.nil_append]
    have hvl : volumeNameLen goos ((if r.absolute then [PathSeparator goos] else []) ++
        joinSep (PathSeparator goos)
          (List.replicate r.ups ['.', '.'] ++ r.names.map String.data)) = 0 := by
      by_cases hw : goos = "windows"
      · subst hw
        obtain ⟨e, es', hes⟩ := List.exists_cons_of_ne_nil hene
        rw [hes] at hE ⊢
        cases e with
        | nil => exact absurd rfl (hE [] (by simp)).1
        | cons a e' =>
          have ha := (hE (a :: e') (by simp)).2 a (by simp)
          obtain ⟨t, ht⟩ := joinSep_head (PathSeparator "windows") a e' es'
          rw [ht]
          cases r.absolute with
          | true =>
            simp only [if_true, List.singleton_append]
            exact volumeNameLen_two _ a t (ha.2 rfl).1 (Or.inr ha.1)
          | false =>
            simp only [Bool.false_eq_true, if_false, List.nil_append]
            cases t with
            | nil => exact volumeNameLen_one a
            | cons y t' =>
              refine volumeNameLen_two a y t' ?_ (Or.inl ha.1)
              have hy : y ∈ joinSep (PathSeparator "windows") ((a :: e') :: es') := by
                rw [ht]
                simp
              rcases mem_joinSep _ _ _ hy with hy | ⟨x, hx, hyx⟩
              · rw [hy]
                decide
              · exact ((hE x hx).2 y hyx).2 rfl |>.1
      · exact volumeNameLen_unix goos hw _
    unfold cleanChars
    simp only [hvl, List.drop_zero, List.take_zero, hbody_ne, if_false]
    rw [hbody]
    simp [fromSlash]
  | drive c =>
    rw [hd] at hvol
    simp only [Volume.wellFormed, Bool.and_eq_true, decide_eq_true_eq] at hvol
    obtain ⟨hw, hc⟩ := hvol
    subst hw
    simp only [CleanRoot.path, CleanRoot.elems, hd, Volume.chars, List.cons_append,
      List.nil_append, List.append_assoc]
    unfold cleanChars
    have hslash : c ≠ '/' := by
      intro e
      rw [e] at hc
      simp at hc
    simp only [volumeNameLen_drive c _ hc, List.drop_succ_cons, List.drop_zero,
      List.take_succ_cons, List.take_zero, hbody_ne, if_false]
    rw [hbody]
    simp [fromSlash, hslash]
  | unc host share =>
    rw [hd] at hvol hunc
    simp only [Volume.wellFormed, Bool.and_eq_true, decide_eq_true_eq] at hvol
    obtain ⟨⟨⟨⟨hw, hhost⟩, hshare⟩, -⟩, -⟩ := hvol
    subst hw
    simp only at hunc
    rw [hunc] at hbody hbody_ne
    have hhc := entryName_chars "windows" host hhost
    have hsc := entryName_chars "windows" share hshare
    have hsepw : PathSeparator "windows" = '\\' := by decide
    simp only [if_true, List.singleton_append, hsepw] at hbody hbody_ne
    have hpath : (r.path "windows").data =
        '\\' :: '\\' :: (host.data ++ '\\' :: share.data) ++
          '\\' :: joinSep '\\' (List.replicate r.ups ['.', '.'] ++ r.names.map String.data) := by
      simp [CleanRoot.path, CleanRoot.elems, hd, Volume.chars, hunc, hsepw]
    rw [hpath]
    unfold cleanChars
    have hvl := volumeNameLen_unc host.data share.data
      (joinSep '\\' (List.replicate r.ups ['.', '.'] ++ r.names.map String.data))
      (fun c hc => (hhc c hc).1) (fun c hc => (hsc c hc).1)
    simp only [hvl]
    rw [List.drop_left, List.take_left]
    simp only [reduceCtorEq, if_false, hsepw]
    rw [hbody]
    congr 1
    unfold fromSlash
    simp only [if_true]
    have hmap : ∀ l : List Char, (∀ c ∈ l, c ≠ '/') →
        l.map (fun c => if c = '/' then '\\' else c) = l := by
      intro l hl
      induction l with
      | nil => rfl
      | cons a l ih =>
        simp only [List.map_cons, hl a (by simp), if_false]
        rw [ih (fun c hc => hl c (by simp [hc]))]
    apply hmap
    intro c hc
    simp only [List.mem_cons, List.mem_append] at hc
    rcases hc with hc | hc | hc | hc | hc
    · rw [hc]; decide
    · rw [hc]; decide
    · exact ((hhc c hc).2 rfl).2.2
    · rw [hc]; decide
    · exact ((hsc c hc).2 rfl).2.2

theorem path_getLast (goos : String) (r : CleanRoot) (h : r.wellFormed goos = true) :
    ∃ x z, (r.path goos).data = x ++ [z] ∧
      (goos = "windows" → z ≠ ':' ∧ z ≠ '\\' ∧ z ≠ '/') := by
  simp only [CleanRoot.wellFormed, Bool.and_eq_true, decide_eq_true_eq] at h
  obtain ⟨⟨⟨⟨hne, hall⟩, -⟩, -⟩, -⟩ := h
  have hne' : r.names.map String.data ≠ [] := by simpa using hne
  have H := nameChars_of_all goos r.names hall
  obtain ⟨init, e, hes⟩ : ∃ init e, r.names.map String.data = init ++ [e] :=
    ⟨_, _, (List.dropLast_append_getLast hne').symm⟩
  have he := H e (by rw [hes]; simp)
  obtain ⟨e', z, hz⟩ : ∃ e' z, e = e' ++ [z] :=
    ⟨_, _, (List.dropLast_append_getLast he.1).symm⟩
  obtain ⟨x, hx⟩ := joinSep_last (PathSeparator goos)
    (List.replicate r.ups ['.', '.'] ++ init) e' z
  have hdata : (r.path goos).data =
      (r.volume.chars ++ (if r.absolute then [PathSeparator goos] else []) ++ x) ++ [z] := by
    simp only [CleanRoot.path, CleanRoot.elems]
    rw [hes, hz, ← List.append_assoc (List.replicate r.ups ['.', '.']), hx,
      ← List.append_assoc]
  exact ⟨_, z, hdata, (he.2.2.2 z (by rw [hz]; simp)).2⟩

theorem Join_cleanRoot (goos : String) (p n : String) (hp : IsCleanRoot goos p)
    (h : entryName goos n = true) :
    Join goos [p, n] = ⟨p.data ++ PathSeparator goos :: n.data⟩ ∧
      IsCleanRoot goos (Join goos [p, n]) := by
  obtain ⟨r, hr, rfl⟩ := hp
  have hr' := hr
  simp only [CleanRoot.wellFormed, Bool.and_eq_true, decide_eq_true_eq] at hr'
  obtain ⟨⟨⟨⟨hne, hall⟩, hvol⟩, habs⟩, hunc⟩ := hr'
  have hne' : r.names.map String.data ≠ [] := by simpa using hne
  have hchild : (⟨r.volume, r.absolute, r.ups, r.names ++ [n]⟩ : CleanRoot).wellFormed goos =
      true := by
    simp only [CleanRoot.wellFormed, Bool.and_eq_true, decide_eq_true_eq]
    refine ⟨⟨⟨⟨by simp, ?_⟩, hvol⟩, habs⟩, hunc⟩
    simp only [List.all_append, Bool.and_eq_true, hall, true_and]
    simp [h]
  have hpath : ((⟨r.volume, r.absolute, r.ups, r.names ++ [n]⟩ : CleanRoot).path goos).data =
      (r.path goos).data ++ PathSeparator goos :: n.data := by
    simp only [CleanRoot.path, CleanRoot.elems, List.map_append, List.map_cons, List.map_nil]
    rw [← List.append_assoc (List.replicate r.ups ['.', '.']),
      joinSep_snoc _ _ _ (by simp [hne'])]
    simp
  have hclean := cleanChars_cleanRoot goos _ hchild
  rw [hpath] at hclean
  have hjoin : Join goos [r.path goos, n] =
      ⟨(r.path goos).data ++ PathSeparator goos :: n.data⟩ := by
    obtain ⟨x, z, hxz, hz⟩ := path_getLast goos r hr
    by_cases hw : goos = "windows"
    · subst hw
      obtain ⟨hz1, hz2, hz3⟩ := hz rfl
      have hstep : joinStep (r.path "windows").data n.data =
          (r.path "windows").data ++ PathSeparator "windows" :: n.data := by
        unfold joinStep
        rw [hxz]
        simp [isSlash, hz1, hz2, hz3, PathSeparator]
      rw [Join_pair_windows, hstep, if_neg (by simp)]
      simp only [Clean, hclean]
    · have hpne : r.path goos ≠ "" := by
        intro e
        have := congrArg String.data e
        rw [hxz] at this
        simp at this
      rw [Join_pair_unix goos hw, if_neg hpne]
      simp only [Clean, hclean]
  refine ⟨hjoin, ⟨r.volume, r.absolute, r.ups, r.names ++ [n]⟩, hchild, ?_⟩
  rw [hjoin]
  exact String.ext hpath.symm

theorem pathDepth_Join_cleanRoot (goos : String) (root p n : String)
    (hp : IsCleanRoot goos p) (h : entryName goos n = true) :
    pathDepth goos root (Join goos [p, n]) = pathDepth goos root p + 1 := by
  obtain ⟨-, -, -, -, h5⟩ := validName_spec goos n (entryName_valid goos n h)
  have hn : n.data.count (PathSeparator goos) = 0 := List.count_eq_zero.mpr h5
  rw [(Join_cleanRoot goos p n hp h).1]
  simp only [pathDepth, countSep, List.count_append, List.count_cons_self, hn]
  omega

theorem pathDepth_le_countSeps (goos : String) (root path : String) :
    pathDepth goos root path ≤
      (countSeps goos path : Int) - (countSep (PathSeparator goos) root : Int) := by
  have := countSep_le_countSeps goos path
  unfold pathDepth
  omega

/-! ## Lemmas on the traversal -/

theorem visit_err (goos root : String) (maxDepth : Int) (path : String) (segs : List String)
    (info : Option FileInfo) (st : WalkState) :
    visit goos root maxDepth path segs info true st =
      (⟨st.goPath, st.visits ++
        [⟨path, segs, (info.map FileInfo.isDir).getD false, true, .none⟩]⟩, .none) := by
  simp [visit, walkFn]

theorem visit_file (goos root : String) (maxDepth : Int) (path : String) (segs : List String)
    (name : String) (st : WalkState) (h : st.goPath = "") :
    visit goos root maxDepth path segs (some ⟨name, false⟩) false st =
      if isTarget name = true then
        (⟨path, st.visits ++ [⟨path, segs, false, false, .found⟩]⟩, .found)
      else (⟨"", st.visits ++ [⟨path, segs, false, false, .none⟩]⟩, .none) := by
  by_cases ht : name = "go.exe" ∨ name = "go"
  · simp [visit, walkFn, h, isTarget, ht]
  · simp [visit, walkFn, h, isTarget, ht]

theorem visit_dir (goos root : String) (maxDepth : Int) (path : String) (segs : List String)
    (name : String) (st : WalkState) (h : st.goPath = "") :
    visit goos root maxDepth path segs (some ⟨name, true⟩) false st =
      if pathDepth goos root path > maxDepth then
        (⟨"", st.visits ++ [⟨path, segs, true, false, .skipDir⟩]⟩, .skipDir)
      else (⟨"", st.visits ++ [⟨path, segs, true, false, .none⟩]⟩, .none) := by
  by_cases hd : pathDepth goos root path > maxDepth
  · simp [visit, walkFn, h, hd]
  · simp [visit, walkFn, h, hd]

theorem fileAt_nil (l : Listing) : l.fileAt [] = false := by
  induction l with
  | nil => rfl
  | file name rest ih => simp [Listing.fileAt, ih]
  | broken name rest ih => simp [Listing.fileAt, ih]
  | locked name rest ih => simp [Listing.fileAt, ih]
  | dir name children rest _ ih => simp [Listing.fileAt, ih]

theorem entryNames_valid (goos : String) (l : Listing) (h : l.entryNames goos = true) :
    l.validNames goos = true := by
  induction l with
  | nil => rfl
  | file name rest ih =>
    simp only [Listing.entryNames, Bool.and_eq_true] at h
    simp [Listing.validNames, entryName_valid goos name h.1, ih h.2]
  | broken name rest ih =>
    simp only [Listing.entryNames, Bool.and_eq_true] at h
    simp [Listing.validNames, entryName_valid goos name h.1, ih h.2]
  | locked name rest ih =>
    simp only [Listing.entryNames, Bool.and_eq_true] at h
    simp [Listing.validNames, entryName_valid goos name h.1, ih h.2]
  | dir name children rest ihc ihr =>
    simp only [Listing.entryNames, Bool.and_eq_true] at h
    simp [Listing.validNames, entryName_valid goos name h.1.1, ihc h.1.2, ihr h.2]

theorem validName_ne_empty (goos : String) (n : String) (h : validName goos n = true) :
    n ≠ "" :=
  (validName_spec goos n h).1

theorem WalkResult.rest {goos root : String} {maxDepth : Int} {path : String}
    {l l' : Listing} {r : WalkState × WalkErr}
    (h : WalkResult goos root maxDepth path l r)
    (hsub : ∀ rel, l.fileAt rel = true → l'.fileAt rel = true)
    (hnames : l'.entryNames goos = true → l.entryNames goos = true) :
    WalkResult goos root maxDepth path l' r := by
  rcases h with h | ⟨h1, h2, rel, h3, h4, h5, h6⟩
  · exact Or.inl h
  · exact Or.inr ⟨h1, h2, rel, hsub rel h3, h4, h5, fun hc hn hd => h6 hc (hnames hn) hd⟩

theorem walkNames_result (goos root : String) (maxDepth : Int) (l : Listing) :
    ∀ (path : String) (segs : List String) (st : WalkState), st.goPath = "" →
      l.validNames goos = true →
      WalkResult goos root maxDepth path l (walkNames goos root maxDepth path segs l st) := by
  induction l with
  | nil =>
    intro path segs st hst _
    exact Or.inl ⟨rfl, hst⟩
  | file name rest ih =>
    intro path segs st hst hv
    simp only [Listing.validNames, Bool.and_eq_true] at hv
    simp only [walkNames]
    rw [visit_file goos root maxDepth _ _ name st hst]
    by_cases ht : isTarget name = true
    · simp only [ht, if_true]
      refine Or.inr ⟨by simp, ?_, [name], by simp [Listing.fileAt], ⟨name, by simp, ht⟩,
        by simp [pathOf], ?_⟩
      · exact Join_ne_empty goos path name (validName_ne_empty goos name hv.1)
      · intro _ _ hd
        simp
        omega
    · simp only [ht, if_false]
      simp only [ne_eq, not_true_eq_false, if_false]
      refine (ih path segs _ rfl hv.2).rest (fun rel h => by simp [Listing.fileAt, h]) ?_
      intro h
      simp only [Listing.entryNames, Bool.and_eq_true] at h
      exact h.2
  | broken name rest ih =>
    intro path segs st hst hv
    simp only [Listing.validNames, Bool.and_eq_true] at hv
    simp only [walkNames, visit_err]
    simp only [ne_eq, not_true_eq_false, false_and, if_false]
    refine WalkResult.rest (ih path segs _ ?_ hv.2) ?_ ?_
    · exact hst
    · intro rel h
      simpa [Listing.fileAt] using h
    · intro h
      simp only [Listing.entryNames, Bool.and_eq_true] at h
      exact h.2
  | locked name rest ih =>
    intro path segs st hst hv
    simp only [Listing.validNames, Bool.and_eq_true] at hv
    simp only [walkNames, visit_err]
    simp only [ne_eq, not_true_eq_false, false_and, if_false]
    refine WalkResult.rest (ih path segs _ ?_ hv.2) ?_ ?_
    · exact hst
    · intro rel h
      simpa [Listing.fileAt] using h
    · intro h
      simp only [Listing.entryNames, Bool.and_eq_true] at h
      exact h.2
  | dir name children rest ihc ihr =>
    intro path segs st hst hv
    simp only [Listing.validNames, Bool.and_eq_true] at hv
    obtain ⟨⟨hv1, hv2⟩, hv3⟩ := hv
    have hrest : (Listing.dir name children rest).entryNames goos = true →
        rest.entryNames goos = true := by
      intro h
      simp only [Listing.entryNames, Bool.and_eq_true] at h
      exact h.2
    simp only [walkNames]
    rw [visit_dir goos root maxDepth _ _ name st hst]
    by_cases hd : pathDepth goos root (Join goos [path, name]) > maxDepth
    · simp only [hd, if_true]
      simp only [ne_eq, reduceCtorEq, not_false_eq_true, not_true_eq_false, if_true, and_false,
        if_false]
      exact (ihr path segs _ rfl hv3).rest (fun rel h => by simp [Listing.fileAt, h]) hrest
    · simp only [hd, if_false]
      simp only [ne_eq, not_true_eq_false, if_false]
      have hc := ihc (Join goos [path, name]) (segs ++ [name])
        ⟨"", st.visits ++ [⟨Join goos [path, name], segs ++ [name], true, false, .none⟩]⟩
        rfl hv2
      rcases hc with ⟨hc1, hc2⟩ | ⟨hc1, hc2, rel, hc3, hc4, hc5, hc6⟩
      · simp only [hc1, not_true_eq_false, false_and, if_false]
        exact (ihr path segs _ hc2 hv3).rest (fun rel h => by simp [Listing.fileAt, h]) hrest
      · simp only [hc1, reduceCtorEq, not_false_eq_true, and_self, if_true]
        refine Or.inr ⟨hc1, hc2, name :: rel, ?_, ?_, ?_, ?_⟩
        · simp [Listing.fileAt, hc3]
        · obtain ⟨n, hn1, hn2⟩ := hc4
          refine ⟨n, ?_, hn2⟩
          cases rel with
          | nil => simp at hn1
          | cons x xs => simpa using hn1
        · simpa [pathOf] using hc5
        · intro hclean hentry hdepth
          simp only [Listing.entryNames, Bool.and_eq_true] at hentry
          obtain ⟨⟨he1, he2⟩, -⟩ := hentry
          have h1 := Join_cleanRoot goos path name hclean he1
          have h2 := pathDepth_Join_cleanRoot goos root path name hclean he1
          have h3 := hc6 h1.2 he2 (by omega)
          simp only [List.length_cons]
          push_cast
          omega

theorem walkNames_complete (goos root : String) (maxDepth : Int) (l : Listing) :
    ∀ (path : String) (segs : List String) (st : WalkState) (rel : List String),
      st.goPath = "" → l.entryNames goos = true → l.fileAt rel = true → endsInTarget rel →
      (countSeps goos path : Int) - (countSep (PathSeparator goos) root : Int) + rel.length ≤
        maxDepth + 1 →
      (walkNames goos root maxDepth path segs l st).1.goPath ≠ "" := by
  induction l with
  | nil =>
    intro path segs st rel _ _ hf
    simp [Listing.fileAt] at hf
  | file name rest ih =>
    intro path segs st rel hst hv hf ht hd
    simp only [Listing.entryNames, Bool.and_eq_true] at hv
    simp only [walkNames]
    rw [visit_file goos root maxDepth _ _ name st hst]
    by_cases htn : isTarget name = true
    · simp only [htn, if_true]
      simpa using Join_ne_empty goos path name
        (validName_ne_empty goos name (entryName_valid goos name hv.1))
    · simp only [htn, if_false]
      simp only [ne_eq, not_true_eq_false, if_false]
      simp only [Listing.fileAt, Bool.or_eq_true, decide_eq_true_eq] at hf
      rcases hf with hf | hf
      · obtain ⟨n, hn1, hn2⟩ := ht
        rw [hf] at hn1
        simp at hn1
        rw [hn1] at htn
        exact absurd hn2 htn
      · exact ih path segs _ rel rfl hv.2 hf ht hd
  | broken name rest ih =>
    intro path segs st rel hst hv hf ht hd
    simp only [Listing.entryNames, Bool.and_eq_true] at hv
    simp only [walkNames, visit_err]
    simp only [ne_eq, not_true_eq_false, false_and, if_false]
    exact ih path segs _ rel hst hv.2 (by simpa [Listing.fileAt] using hf) ht hd
  | locked name rest ih =>
    intro path segs st rel hst hv hf ht hd
    simp only [Listing.entryNames, Bool.and_eq_true] at hv
    simp only [walkNames, visit_err]
    simp only [ne_eq, not_true_eq_false, false_and, if_false]
    exact ih path segs _ rel hst hv.2 (by simpa [Listing.fileAt] using hf) ht hd
  | dir name children rest ihc ihr =>
    intro path segs st rel hst hv hf ht hd
    simp only [Listing.entryNames, Bool.and_eq_true] at hv
    obtain ⟨⟨hv1, hv2⟩, hv3⟩ := hv
    have hle := countSeps_Join_le goos path name hv1
    have hdepth := pathDepth_le_countSeps goos root (Join goos [path, name])
    -- the target is either below this directory or among the later entries
    have hcases : (∃ ss, rel = name :: ss ∧ children.fileAt ss = true ∧ endsInTarget ss ∧
        2 ≤ rel.length) ∨ rest.fileAt rel = true := by
      simp only [Listing.fileAt, Bool.or_eq_true] at hf
      rcases hf with hf | hf
      · left
        cases rel with
        | nil => simp at hf
        | cons s ss =>
          simp only [Bool.and_eq_true, decide_eq_true_eq] at hf
          obtain ⟨hs, hss⟩ := hf
          subst hs
          cases ss with
          | nil => simp [fileAt_nil] at hss
          | cons x xs =>
            refine ⟨x :: xs, rfl, hss, ?_, by simp⟩
            obtain ⟨n, hn1, hn2⟩ := ht
            exact ⟨n, by simpa using hn1, hn2⟩
      · exact Or.inr hf
    simp only [walkNames]
    rw [visit_dir goos root maxDepth _ _ name st hst]
    by_cases hdp : pathDepth goos root (Join goos [path, name]) > maxDepth
    · simp only [hdp, if_true]
      simp only [ne_eq, reduceCtorEq, not_false_eq_true, not_true_eq_false, if_true, and_false,
        if_false]
      rcases hcases with ⟨ss, hrel, _, _, hlen⟩ | hf
      · exfalso
        have : (2 : Int) ≤ rel.length := by exact_mod_cast hlen
        omega
      · exact ihr path segs _ rel rfl hv3 hf ht hd
    · simp only [hdp, if_false]
      simp only [ne_eq, not_true_eq_false, if_false]
      have hres := walkNames_result goos root maxDepth children (Join goos [path, name])
        (segs ++ [name])
        ⟨"", st.visits ++ [⟨Join goos [path, name], segs ++ [name], true, false, .none⟩]⟩
        rfl (entryNames_valid goos children hv2)
      rcases hres with ⟨hc1, hc2⟩ | ⟨hc1, hc2, -⟩
      · simp only [hc1, not_true_eq_false, false_and, if_false]
        rcases hcases with ⟨ss, hrel, hss, hts, _⟩ | hf
        · exfalso
          refine ihc (Join goos [path, name]) (segs ++ [name]) _ ss rfl hv2 hss hts ?_ hc2
          rw [hrel] at hd
          simp only [List.length_cons] at hd
          push_cast at hd
          omega
        · exact ihr path segs _ rel hc2 hv3 hf ht hd
      · simp only [hc1, reduceCtorEq, not_false_eq_true, and_self, if_true]
        exact hc2

theorem walkFn_dir (goos root : String) (maxDepth : Int) (path name : String) (err : Bool)
    (goPath : String) :
    (walkFn goos root maxDepth path (some ⟨name, true⟩) err goPath).1 = goPath ∧
      ((walkFn goos root maxDepth path (some ⟨name, true⟩) err goPath).2 = .none ∨
       (walkFn goos root maxDepth path (some ⟨name, true⟩) err goPath).2 = .skipDir) := by
  unfold walkFn
  split
  · exact ⟨rfl, Or.inl rfl⟩
  · simp only [if_true]
    split
    · exact ⟨rfl, Or.inr rfl⟩
    · exact ⟨rfl, Or.inl rfl⟩

theorem sameOutcome_visit (goos root : String) (maxDepth : Int) (path : String)
    (segs : List String) (info : Option FileInfo) (err : Bool) (st st' : WalkState)
    (h : st.goPath = st'.goPath) :
    SameOutcome (visit goos root maxDepth path segs info err st)
      (visit goos root maxDepth path segs info err st') := by
  simp [SameOutcome, visit, h]

theorem sameOutcome_loop (stop : WalkErr → Prop) [DecidablePred stop]
    (f g : WalkState → WalkState × WalkErr)
    (hfg : ∀ st st', st.goPath = st'.goPath → SameOutcome (f st) (g st'))
    (r r' : WalkState × WalkErr) (h : SameOutcome r r') :
    SameOutcome (if stop r.2 then r else f r.1) (if stop r'.2 then r' else g r'.1) := by
  obtain ⟨h1, h2⟩ := h
  by_cases hs : stop r.2
  · have hs' : stop r'.2 := h2 ▸ hs
    simp only [hs, hs', if_true]
    exact ⟨h1, h2⟩
  · have hs' : ¬ stop r'.2 := h2 ▸ hs
    simp only [hs, hs', if_false]
    exact hfg _ _ h1

/-- Unreadable entries do not change what the walk over a listing returns. -/
theorem walkNames_eraseUnreadable (goos root : String) (maxDepth : Int) (l : Listing) :
    ∀ (path : String) (segs : List String) (st st' : WalkState), st.goPath = st'.goPath →
      SameOutcome (walkNames goos root maxDepth path segs l st)
        (walkNames goos root maxDepth path segs l.eraseUnreadable st') := by
  induction l with
  | nil =>
    intro path segs st st' h
    exact ⟨h, rfl⟩
  | file name rest ih =>
    intro path segs st st' h
    simp only [walkNames, Listing.eraseUnreadable]
    exact sameOutcome_loop (fun e => e ≠ .none) _ _ (ih path segs) _ _
      (sameOutcome_visit goos root maxDepth _ _ _ _ st st' h)
  | broken name rest ih =>
    intro path segs st st' h
    simp only [walkNames, Listing.eraseUnreadable, visit_err]
    simp only [ne_eq, not_true_eq_false, false_and, if_false]
    exact ih path segs _ _ h
  | locked name rest ih =>
    intro path segs st st' h
    simp only [walkNames, Listing.eraseUnreadable, visit_err]
    simp only [ne_eq, not_true_eq_false, false_and, if_false]
    have hw := walkFn_dir goos root maxDepth (Join goos [path, name]) name false st'.goPath
    simp only [visit]
    rcases hw.2 with h2 | h2
    · simp only [h2, ne_eq, not_true_eq_false, if_false, false_and]
      exact ih path segs _ _ (by rw [h, hw.1])
    · simp only [h2, ne_eq, reduceCtorEq, not_false_eq_true, not_true_eq_false, if_true,
        and_false, if_false]
      exact ih path segs _ _ (by rw [h, hw.1])
  | dir name children rest ihc ihr =>
    intro path segs st st' h
    simp only [walkNames, Listing.eraseUnreadable]
    refine sameOutcome_loop (fun e => e ≠ .none ∧ e ≠ .skipDir) _ _ (ihr path segs) _ _ ?_
    exact sameOutcome_loop (fun e => e ≠ .none) _ _ (ihc _ _) _ _
      (sameOutcome_visit goos root maxDepth _ _ _ _ st st' h)

theorem VisitsOK.trans {goos root : String} {maxDepth : Int} {a b c : List Visit}
    (h1 : VisitsOK goos root maxDepth a b) (h2 : VisitsOK goos root maxDepth b c) :
    VisitsOK goos root maxDepth a c := by
  intro v hv
  rcases h2 v hv with h | h
  · exact h1 v h
  · exact Or.inr h

theorem VisitsOK.snoc {goos root : String} {maxDepth : Int} (a : List Visit) (v : Visit)
    (h : GoodVisit goos root maxDepth v) : VisitsOK goos root maxDepth a (a ++ [v]) := by
  intro w hw
  simp only [List.mem_append, List.mem_singleton] at hw
  rcases hw with hw | hw
  · exact Or.inl hw
  · exact Or.inr (hw ▸ h)

theorem pathOf_snoc (goos root : String) (segs : List String) (name : String) :
    pathOf goos root (segs ++ [name]) = Join goos [pathOf goos root segs, name] := by
  simp [pathOf, List.foldl_append]

theorem walkNames_visits (goos root : String) (maxDepth : Int) (l : Listing) :
    ∀ (path : String) (segs : List String) (st : WalkState), st.goPath = "" →
      l.entryNames goos = true → IsCleanRoot goos path →
      path = pathOf goos root segs → pathDepth goos root path = segs.length →
      (segs.length : Int) ≤ maxDepth →
      VisitsOK goos root maxDepth st.visits
        (walkNames goos root maxDepth path segs l st).1.visits := by
  induction l with
  | nil =>
    intro path segs st _ _ _ _ _ _ v hv
    exact Or.inl hv
  | file name rest ih =>
    intro path segs st hst hv hc hp hd hm
    simp only [Listing.entryNames, Bool.and_eq_true] at hv
    have hj := pathDepth_Join_cleanRoot goos root path name hc hv.1
    have hgood : ∀ ret, GoodVisit goos root maxDepth
        ⟨Join goos [path, name], segs ++ [name], false, false, ret⟩ := by
      intro ret
      refine ⟨by rw [pathOf_snoc, hp], ?_, ?_, by simp⟩
      · simp only [List.length_append, List.length_singleton]
        push_cast
        omega
      · simp only [List.length_append, List.length_singleton]
        push_cast
        omega
    simp only [walkNames]
    rw [visit_file goos root maxDepth _ _ name st hst]
    by_cases ht : isTarget name = true
    · simp only [ht, if_true]
      simp only [ne_eq, reduceCtorEq, not_false_eq_true, if_true]
      exact VisitsOK.snoc _ _ (hgood _)
    · simp only [ht, if_false]
      simp only [ne_eq, not_true_eq_false, if_false]
      exact (VisitsOK.snoc _ _ (hgood _)).trans (ih path segs _ rfl hv.2 hc hp hd hm)
  | broken name rest ih =>
    intro path segs st hst hv hc hp hd hm
    simp only [Listing.entryNames, Bool.and_eq_true] at hv
    have hj := pathDepth_Join_cleanRoot goos root path name hc hv.1
    have hgood : GoodVisit goos root maxDepth
        ⟨Join goos [path, name], segs ++ [name], false, true, .none⟩ := by
      refine ⟨by rw [pathOf_snoc, hp], ?_, ?_, by simp⟩
      · simp only [List.length_append, List.length_singleton]
        push_cast
        omega
      · simp only [List.length_append, List.length_singleton]
        push_cast
        omega
    simp only [walkNames, visit_err]
    simp only [ne_eq, not_true_eq_false, false_and, if_false]
    exact (VisitsOK.snoc _ _ hgood).trans (ih path segs _ hst hv.2 hc hp hd hm)
  | locked name rest ih =>
    intro path segs st hst hv hc hp hd hm
    simp only [Listing.entryNames, Bool.and_eq_true] at hv
    have hj := pathDepth_Join_cleanRoot goos root path name hc hv.1
    have hgood : GoodVisit goos root maxDepth
        ⟨Join goos [path, name], segs ++ [name], true, true, .none⟩ := by
      refine ⟨by rw [pathOf_snoc, hp], ?_, ?_, by simp⟩
      · simp only [List.length_append, List.length_singleton]
        push_cast
        omega
      · simp only [List.length_append, List.length_singleton]
        push_cast
        omega
    simp only [walkNames, visit_err]
    simp only [ne_eq, not_true_eq_false, false_and, if_false]
    exact (VisitsOK.snoc _ _ hgood).trans (ih path segs _ hst hv.2 hc hp hd hm)
  | dir name children rest ihc ihr =>
    intro path segs st hst hv hc hp hd hm
    simp only [Listing.entryNames, Bool.and_eq_true] at hv
    obtain ⟨⟨hv1, hv2⟩, hv3⟩ := hv
    have hj := pathDepth_Join_cleanRoot goos root path name hc hv1
    have hjc := (Join_cleanRoot goos path name hc hv1).2
    have hlen : ((segs ++ [name]).length : Int) = segs.length + 1 := by
      simp only [List.length_append, List.length_singleton]
      push_cast
      rfl
    simp only [walkNames]
    rw [visit_dir goos root maxDepth _ _ name st hst]
    by_cases hdp : pathDepth goos root (Join goos [path, name]) > maxDepth
    · have hgood : GoodVisit goos root maxDepth
          ⟨Join goos [path, name], segs ++ [name], true, false, .skipDir⟩ := by
        refine ⟨by rw [pathOf_snoc, hp], ?_, ?_, ?_⟩
        · show ((segs ++ [name]).length : Int) ≤ maxDepth + 1
          omega
        · show pathDepth goos root (Join goos [path, name]) = ((segs ++ [name]).length : Int)
          omega
        · intro _ _
          show WalkErr.skipDir = WalkErr.skipDir ↔ ((segs ++ [name]).length : Int) > maxDepth
          simp only [true_iff]
          omega
      simp only [hdp, if_true]
      simp only [ne_eq, reduceCtorEq, not_false_eq_true, not_true_eq_false, if_true, and_false,
        if_false]
      exact (VisitsOK.snoc _ _ hgood).trans (ihr path segs _ rfl hv3 hc hp hd hm)
    · have hgood : GoodVisit goos root maxDepth
          ⟨Join goos [path, name], segs ++ [name], true, false, .none⟩ := by
        refine ⟨by rw [pathOf_snoc, hp], ?_, ?_, ?_⟩
        · show ((segs ++ [name]).length : Int) ≤ maxDepth + 1
          omega
        · show pathDepth goos root (Join goos [path, name]) = ((segs ++ [name]).length : Int)
          omega
        · intro _ _
          show WalkErr.none = WalkErr.skipDir ↔ ((segs ++ [name]).length : Int) > maxDepth
          simp only [reduceCtorEq, false_iff]
          omega
      simp only [hdp, if_false]
      simp only [ne_eq, not_true_eq_false, if_false]
      have hch := ihc (Join goos [path, name]) (segs ++ [name])
        ⟨"", st.visits ++ [⟨Join goos [path, name], segs ++ [name], true, false, .none⟩]⟩
        rfl hv2 hjc (by rw [pathOf_snoc, hp]) (by omega) (by omega)
      have hres := walkNames_result goos root maxDepth children (Join goos [path, name])
        (segs ++ [name])
        ⟨"", st.visits ++ [⟨Join goos [path, name], segs ++ [name], true, false, .none⟩]⟩
        rfl (entryNames_valid goos children hv2)
      have h01 := (VisitsOK.snoc st.visits _ hgood).trans hch
      rcases hres with ⟨hc1, hc2⟩ | ⟨hc1, hc2, -⟩
      · simp only [hc1, not_true_eq_false, false_and, if_false]
        exact h01.trans (ihr path segs _ hc2 hv3 hc hp hd hm)
      · simp only [hc1, reduceCtorEq, not_false_eq_true, and_self, if_true]
        exact h01

/-! ## Lemmas on `walkDirLimited` -/

theorem pathDepth_self (goos root : String) : pathDepth goos root root = 0 := by
  simp [pathDepth]

theorem basename_empty (goos : String) : basename goos "" = "" := by
  simp [basename, stripTrailingSep, splitSep]

theorem endsInTarget_nameAt (goos root : String) (rel : List String) (h : endsInTarget rel) :
    isTarget (nameAt goos root rel) = true := by
  obtain ⟨n, hn1, hn2⟩ := h
  simp [nameAt, hn1, hn2]

theorem walkDirLimited_sound (goos : String) (t : Tree) (root : String) (maxDepth : Int)
    (hnames : t.validNames goos = true) :
    walkDirLimited goos t root maxDepth = "" ∨
      ∃ segs, t.targetAt goos root segs = true ∧
        walkDirLimited goos t root maxDepth = pathOf goos root segs ∧
        (IsCleanRoot goos root → t.entryNames goos = true → 0 ≤ maxDepth →
          (segs.length : Int) ≤ maxDepth + 1) := by
  cases t with
  | missing => exact Or.inl (by simp [walkDirLimited, Walk, visit_err])
  | locked => exact Or.inl (by simp [walkDirLimited, Walk, visit_err])
  | file =>
    simp only [walkDirLimited, Walk]
    rw [visit_file goos root maxDepth root [] _ _ rfl]
    by_cases ht : isTarget (basename goos root) = true
    · right
      refine ⟨[], ?_, by simp [ht, pathOf], ?_⟩
      · simp [Tree.targetAt, Tree.fileAt, nameAt, ht]
      · intro _ _ hmax
        simp only [List.length_nil]
        push_cast
        omega
    · left
      simp [ht]
  | dir l =>
    simp only [walkDirLimited, Walk]
    rw [visit_dir goos root maxDepth root [] _ _ rfl]
    by_cases hd : pathDepth goos root root > maxDepth
    · left
      simp [hd]
    · simp only [hd, if_false]
      simp only [ne_eq, not_true_eq_false, if_false]
      have hres := walkNames_result goos root maxDepth l root []
        ⟨"", [] ++ [⟨root, [], true, false, .none⟩]⟩ rfl hnames
      rcases hres with ⟨-, h2⟩ | ⟨-, -, rel, h3, h4, h5, h6⟩
      · exact Or.inl h2
      · right
        refine ⟨rel, ?_, h5, ?_⟩
        · simp [Tree.targetAt, Tree.fileAt, h3, endsInTarget_nameAt goos root rel h4]
        · intro hc hn _
          have := h6 hc hn (by omega)
          rw [pathDepth_self] at this
          omega

theorem walkDirLimited_complete (goos : String) (t : Tree) (root : String) (maxDepth : Int)
    (segs : List String) (hroot : plainRoot goos root = true)
    (hnames : t.entryNames goos = true) (hmax : 0 ≤ maxDepth)
    (htarget : t.targetAt goos root segs = true) (hdepth : (segs.length : Int) ≤ maxDepth) :
    walkDirLimited goos t root maxDepth ≠ "" := by
  simp only [Tree.targetAt, Bool.and_eq_true] at htarget
  obtain ⟨hf, ht⟩ := htarget
  cases t with
  | missing => simp [Tree.fileAt] at hf
  | locked => simp [Tree.fileAt] at hf
  | file =>
    simp only [Tree.fileAt, decide_eq_true_eq] at hf
    subst hf
    simp only [nameAt, List.getLast?_nil, Option.getD_none] at ht
    simp only [walkDirLimited, Walk]
    rw [visit_file goos root maxDepth root [] _ _ rfl]
    simp only [ht, if_true]
    intro e
    rw [e, basename_empty] at ht
    simp [isTarget] at ht
  | dir l =>
    simp only [Tree.fileAt] at hf
    have hne : segs ≠ [] := by
      intro e
      rw [e, fileAt_nil] at hf
      exact absurd hf (by simp)
    have hends : endsInTarget segs := by
      obtain ⟨n, hn⟩ : ∃ n, segs.getLast? = some n := by
        cases hl : segs.getLast? with
        | none => exact absurd (List.getLast?_eq_none_iff.mp hl) hne
        | some n => exact ⟨n, rfl⟩
      refine ⟨n, hn, ?_⟩
      simpa [nameAt, hn] using ht
    simp only [walkDirLimited, Walk]
    rw [visit_dir goos root maxDepth root [] _ _ rfl]
    have hd : ¬ pathDepth goos root root > maxDepth := by
      rw [pathDepth_self]
      omega
    simp only [hd, if_false]
    simp only [ne_eq, not_true_eq_false, if_false]
    refine walkNames_complete goos root maxDepth l root [] _ segs rfl hnames hf hends ?_
    rw [countSeps_plainRoot goos root hroot]
    omega

theorem walkDirLimited_eraseUnreadable (goos : String) (t : Tree) (root : String)
    (maxDepth : Int) :
    walkDirLimited goos t root maxDepth =
      walkDirLimited goos t.eraseUnreadable root maxDepth := by
  cases t with
  | missing => rfl
  | file => rfl
  | locked =>
    have hw := walkFn_dir goos root maxDepth root (basename goos root) false ""
    simp only [walkDirLimited, Walk, Tree.eraseUnreadable, visit_err, visit]
    have hw' := (walkFn_dir goos root maxDepth root (basename goos root) true "").1
    rcases hw.2 with h2 | h2
    · simp [h2, hw.1, hw', walkNames]
    · simp [h2, hw.1, hw']
  | dir l =>
    simp only [walkDirLimited, Walk, Tree.eraseUnreadable]
    split
    · rfl
    · exact (walkNames_eraseUnreadable goos root maxDepth l root [] _ _ rfl).1

theorem walkVisits_good (goos : String) (t : Tree) (root : String) (maxDepth : Int)
    (hroot : IsCleanRoot goos root) (hnames : t.entryNames goos = true) :
    ∀ v ∈ walkVisits goos t root maxDepth,
      RootVisit root maxDepth v ∨ GoodVisit goos root maxDepth v := by
  cases t with
  | missing =>
    intro v hv
    simp only [walkVisits, Walk, visit_err, List.nil_append, List.mem_singleton] at hv
    subst hv
    exact Or.inl ⟨rfl, rfl, by simp⟩
  | locked =>
    intro v hv
    simp only [walkVisits, Walk, visit_err, List.nil_append, List.mem_singleton] at hv
    subst hv
    exact Or.inl ⟨rfl, rfl, by simp⟩
  | file =>
    intro v hv
    simp only [walkVisits, Walk] at hv
    rw [visit_file goos root maxDepth root [] _ _ rfl] at hv
    split at hv
    · simp only [List.nil_append, List.mem_singleton] at hv
      subst hv
      exact Or.inl ⟨rfl, rfl, by simp⟩
    · simp only [List.nil_append, List.mem_singleton] at hv
      subst hv
      exact Or.inl ⟨rfl, rfl, by simp⟩
  | dir l =>
    intro v hv
    simp only [walkVisits, Walk] at hv
    rw [visit_dir goos root maxDepth root [] _ _ rfl] at hv
    by_cases hd : pathDepth goos root root > maxDepth
    · simp only [hd, if_true] at hv
      simp only [ne_eq, reduceCtorEq, not_false_eq_true, if_true, List.nil_append,
        List.mem_singleton] at hv
      subst hv
      rw [pathDepth_self] at hd
      exact Or.inl ⟨rfl, rfl, fun _ _ => by simp [hd]⟩
    · simp only [hd, if_false] at hv
      simp only [ne_eq, not_true_eq_false, if_false] at hv
      rw [pathDepth_self] at hd
      have hv' := walkNames_visits goos root maxDepth l root []
        ⟨"", [] ++ [⟨root, [], true, false, .none⟩]⟩ rfl hnames hroot rfl
        (by rw [pathDepth_self]; rfl) (by simp only [List.length_nil]; push_cast; omega) v hv
      rcases hv' with h | h
      · simp only [List.nil_append, List.mem_singleton] at h
        subst h
        refine Or.inl ⟨rfl, rfl, fun _ _ => ?_⟩
        simp only [reduceCtorEq, false_iff]
        omega
      · exact Or.inr h

/-! ## The bounded-depth search -/

/-- C1 fails as stated: on Windows, below the root `C:/a/b` written with
slashes, `filepath.Join` gives the directory `d` the path `C:\a\b\d`, whose
three backslashes count as depth 3 against a root without any; with
`maxDepth = 2` the directory is pruned and the file `d\go.exe`, two segments
below the root, is not found. -/
theorem walkDirLimited_slash_root_counterexample :
    slashRootTree.readable = true ∧
    slashRootTree.targetAt "windows" "C:/a/b" ["d", "go.exe"] = true ∧
    ((["d", "go.exe"] : List String).length : Int) ≤ 2 ∧
    walkVisits "windows" slashRootTree "C:/a/b" 2 =
      [⟨"C:/a/b", [], true, false, .none⟩,
        ⟨"C:\\a\\b\\d", ["d"], true, false, .skipDir⟩] ∧
    walkDirLimited "windows" slashRootTree "C:/a/b" 2 = "" := by
  decide

/-- C1, amended: for a plain root (on Windows: written with backslashes only,
no device path), in a tree with no unreadable entry, a file named `go` or
`go.exe` at depth `segs.length ≤ maxDepth` below the root makes
`walkDirLimited` return a non-empty path; that path is the path of a file
named `go` or `go.exe` below the root, and of that very file when the tree
holds no other. -/
theorem walkDirLimited_finds_target (goos : String) (t : Tree) (root : String)
    (maxDepth : Int) (segs : List String) (hroot : plainRoot goos root = true)
    (_hread : t.readable = true) (hnames : t.entryNames goos = true) (hmax : 0 ≤ maxDepth)
    (htarget : t.targetAt goos root segs = true) (hdepth : (segs.length : Int) ≤ maxDepth) :
    walkDirLimited goos t root maxDepth ≠ "" ∧
    (∃ found, t.targetAt goos root found = true ∧
      walkDirLimited goos t root maxDepth = pathOf goos root found) ∧
    ((∀ other, t.targetAt goos root other = true → other = segs) →
      walkDirLimited goos t root maxDepth = pathOf goos root segs) := by
  have hne := walkDirLimited_complete goos t root maxDepth segs hroot hnames hmax htarget
    hdepth
  have hvalid : t.validNames goos = true := by
    cases t with
    | dir l => exact entryNames_valid goos l hnames
    | missing => rfl
    | file => rfl
    | locked => rfl
  rcases walkDirLimited_sound goos t root maxDepth hvalid with h | ⟨found, h1, h2, -⟩
  · exact absurd h hne
  · refine ⟨hne, ⟨found, h1, h2⟩, fun huniq => ?_⟩
    rw [h2, huniq found h1]

/-- C1, amended, on the installation below `D:\Go`, where `go.exe` lies at
depth 3. -/
theorem walkDirLimited_finds_target_witness :
    walkDirLimited "windows" sdkTree "D:\\Go" 4 ≠ "" ∧
    (∃ found, sdkTree.targetAt "windows" "D:\\Go" found = true ∧
      walkDirLimited "windows" sdkTree "D:\\Go" 4 = pathOf "windows" "D:\\Go" found) ∧
    ((∀ other, sdkTree.targetAt "windows" "D:\\Go" other = true →
        other = ["go1.21", "bin", "go.exe"]) →
      walkDirLimited "windows" sdkTree "D:\\Go" 4 =
        pathOf "windows" "D:\\Go" ["go1.21", "bin", "go.exe"]) :=
  walkDirLimited_finds_target "windows" sdkTree "D:\\Go" 4 ["go1.21", "bin", "go.exe"]
    (by decide) (by decide) (by decide) (by decide) (by decide) (by decide)

/-- C2 fails as stated: with `maxDepth = 0` the only file named `go` lies at
depth 1, beyond the limit, and `walkDirLimited` still returns its path; below
the root `/opt/go/`, written with a trailing separator, it returns the path of
a file at depth 2, and so it does on Windows below the root `C:.`, the current
directory of the drive, whose entries get paths without a separator. -/
theorem walkDirLimited_beyond_limit_counterexample :
    ((∀ segs, flatTree.targetAt "linux" "/opt/go" segs = true → (segs.length : Int) > 0) ∧
      walkDirLimited "linux" flatTree "/opt/go" 0 = "/opt/go/go") ∧
    ((∀ segs, nestedTree.targetAt "linux" "/opt/go/" segs = true →
        (segs.length : Int) > 0 + 1) ∧
      walkDirLimited "linux" nestedTree "/opt/go/" 0 = "/opt/go/bin/go") ∧
    ((∀ segs, slashRootTree.targetAt "windows" "C:." segs = true →
        (segs.length : Int) > 0 + 1) ∧
      walkDirLimited "windows" slashRootTree "C:." 0 = "C:d\\go.exe") := by
  refine ⟨⟨?_, by decide⟩, ⟨?_, by decide⟩, ⟨?_, by decide⟩⟩
  · intro segs h
    cases segs with
    | nil => simp [Tree.targetAt, Tree.fileAt, flatTree, fileAt_nil] at h
    | cons s ss =>
      simp only [List.length_cons]
      push_cast
      omega
  · intro segs h
    rcases segs with _ | ⟨a, _ | ⟨b, r⟩⟩
    · simp [Tree.targetAt, Tree.fileAt, nestedTree, fileAt_nil] at h
    · simp [Tree.targetAt, Tree.fileAt, nestedTree, Listing.fileAt] at h
    · simp only [List.length_cons]
      push_cast
      omega
  · intro segs h
    rcases segs with _ | ⟨a, _ | ⟨b, r⟩⟩
    · simp [Tree.targetAt, Tree.fileAt, slashRootTree, fileAt_nil] at h
    · simp [Tree.targetAt, Tree.fileAt, slashRootTree, Listing.fileAt] at h
    · simp only [List.length_cons]
      push_cast
      omega

/-- C2, amended: below a root written in cleaned form that ends in a name,
when every file named `go` or `go.exe` lies at depth greater than
`maxDepth + 1`, `walkDirLimited` returns the empty string. -/
theorem walkDirLimited_absent_beyond (goos : String) (t : Tree) (root : String)
    (maxDepth : Int) (hroot : IsCleanRoot goos root) (hnames : t.entryNames goos = true)
    (hmax : 0 ≤ maxDepth)
    (hdeep : ∀ segs, t.targetAt goos root segs = true → (segs.length : Int) > maxDepth + 1) :
    walkDirLimited goos t root maxDepth = "" := by
  have hvalid : t.validNames goos = true := by
    cases t with
    | dir l => exact entryNames_valid goos l hnames
    | missing => rfl
    | file => rfl
    | locked => rfl
  rcases walkDirLimited_sound goos t root maxDepth hvalid with h | ⟨found, h1, -, h3⟩
  · exact h
  · have := hdeep found h1
    have := h3 hroot hnames hmax
    omega

/-- C2, amended, below the network root `\\fs01\tools\Go` on Windows, on a
tree whose only `go.exe` lies at depth 2, with limit 0. -/
theorem walkDirLimited_absent_beyond_witness :
    walkDirLimited "windows" slashRootTree "\\\\fs01\\tools\\Go" 0 = "" :=
  walkDirLimited_absent_beyond "windows" slashRootTree "\\\\fs01\\tools\\Go" 0
    ⟨⟨.unc "fs01" "tools", true, 0, ["Go"]⟩, by decide, by decide⟩ (by decide) (by decide) (by
      intro segs h
      rcases segs with _ | ⟨a, _ | ⟨b, r⟩⟩
      · simp [Tree.targetAt, Tree.fileAt, slashRootTree, fileAt_nil] at h
      · simp [Tree.targetAt, Tree.fileAt, slashRootTree, Listing.fileAt] at h
      · simp only [List.length_cons]
        push_cast
        omega)

/-- C3 fails as stated: with `maxDepth = 0` the callback is applied to the
directory `/opt/go/bin`, whose depth 1 exceeds the limit; it answers `SkipDir`
there. Below the root `/opt/go/`, written with a trailing separator, it is
applied to the directory `/opt/go/pkg/tool` of depth 2, and on Windows below
the root `C:.` to the directory `C:pkg\tool` of depth 2. -/
theorem walkVisits_beyond_limit_counterexample :
    walkVisits "linux" nestedTree "/opt/go" 0 =
      [⟨"/opt/go", [], true, false, .none⟩,
        ⟨"/opt/go/bin", ["bin"], true, false, .skipDir⟩] ∧
    walkVisits "linux" deepDirTree "/opt/go/" 0 =
      [⟨"/opt/go/", [], true, false, .none⟩,
        ⟨"/opt/go/pkg", ["pkg"], true, false, .none⟩,
        ⟨"/opt/go/pkg/tool", ["pkg", "tool"], true, false, .skipDir⟩] ∧
    walkVisits "windows" deepDirTree "C:." 0 =
      [⟨"C:.", [], true, false, .none⟩,
        ⟨"C:pkg", ["pkg"], true, false, .none⟩,
        ⟨"C:pkg\\tool", ["pkg", "tool"], true, false, .skipDir⟩] := by
  decide

/-- C3, amended: below a root written in cleaned form that ends in a name,
every entry the callback is applied to lies at depth at most `maxDepth + 1`
(its path is the root followed by the names of its segments), and a readable
directory beyond the limit is answered with `SkipDir`, so that nothing below
it is visited. -/
theorem walkVisits_within_limit_plus_one (goos : String) (t : Tree) (root : String)
    (maxDepth : Int) (hroot : IsCleanRoot goos root) (hnames : t.entryNames goos = true)
    (hmax : 0 ≤ maxDepth) :
    ∀ v ∈ walkVisits goos t root maxDepth,
      v.path = pathOf goos root v.segs ∧ (v.segs.length : Int) ≤ maxDepth + 1 ∧
      (v.isDir = true → v.err = false → (v.segs.length : Int) > maxDepth →
        v.ret = .skipDir) := by
  intro v hv
  rcases walkVisits_good goos t root maxDepth hroot hnames v hv with
    ⟨h1, h2, h3⟩ | ⟨h1, h2, -, h4⟩
  · refine ⟨by rw [h1, h2]; rfl, ?_, ?_⟩
    · rw [h2]
      simp only [List.length_nil]
      push_cast
      omega
    · intro hd he hlt
      rw [h2] at hlt
      exact (h3 hd he).mpr (by simpa using hlt)
  · exact ⟨h1, h2, fun hd he hlt => (h4 hd he).mpr hlt⟩

/-- C3, amended, at the visit of `/opt/go/bin` with limit 0. -/
theorem walkVisits_within_limit_plus_one_witness :
    (⟨"/opt/go/bin", ["bin"], true, false, .skipDir⟩ : Visit) ∈
      walkVisits "linux" damagedTree "/opt/go" 0 ∧
    (⟨"/opt/go/bin", ["bin"], true, false, .skipDir⟩ : Visit).path =
      pathOf "linux" "/opt/go" ["bin"] ∧
    ((["bin"] : List String).length : Int) ≤ 0 + 1 :=
  ⟨by decide,
    (walkVisits_within_limit_plus_one "linux" damagedTree "/opt/go" 0
      ⟨⟨.none, true, 0, ["opt", "go"]⟩, by decide, by decide⟩ (by decide)
      (by decide) ⟨"/opt/go/bin", ["bin"], true, false, .skipDir⟩ (by decide)).1,
    (walkVisits_within_limit_plus_one "linux" damagedTree "/opt/go" 0
      ⟨⟨.none, true, 0, ["opt", "go"]⟩, by decide, by decide⟩ (by decide)
      (by decide) ⟨"/opt/go/bin", ["bin"], true, false, .skipDir⟩ (by decide)).2.1⟩

/-- C8 fails as stated: on Windows, below the root `D:/sdk/go` written with
slashes, the directory `bin` gets the path `D:\sdk\go\bin` and the depth 3;
with `maxDepth = 2` it is pruned and `bin\go.exe`, two segments down behind
readable directories, is not found, with the unreadable entries or without
them. -/
theorem walkDirLimited_unreadable_slash_root_counterexample :
    damagedSdkTree.targetAt "windows" "D:/sdk/go" ["bin", "go.exe"] = true ∧
    ((["bin", "go.exe"] : List String).length : Int) ≤ 2 ∧
    walkDirLimited "windows" damagedSdkTree "D:/sdk/go" 2 = "" ∧
    walkDirLimited "windows" damagedSdkTree.eraseUnreadable "D:/sdk/go" 2 = "" := by
  decide

/-- C8, amended: unreadable entries are skipped and nothing else:
`walkDirLimited` returns what it returns on the tree without them, and for a
plain root (on Windows: written with backslashes only, no device path) a file
named `go` or `go.exe` at depth at most `maxDepth` that is reached through
readable directories makes the result non-empty. -/
theorem walkDirLimited_skips_unreadable (goos : String) (t : Tree) (root : String)
    (maxDepth : Int) (segs : List String) (hroot : plainRoot goos root = true)
    (hnames : t.entryNames goos = true) (hmax : 0 ≤ maxDepth)
    (htarget : t.targetAt goos root segs = true)
    (hdepth : (segs.length : Int) ≤ maxDepth) :
    walkDirLimited goos t root maxDepth = walkDirLimited goos t.eraseUnreadable root maxDepth ∧
    walkDirLimited goos t root maxDepth ≠ "" :=
  ⟨walkDirLimited_eraseUnreadable goos t root maxDepth,
    walkDirLimited_complete goos t root maxDepth segs hroot hnames hmax htarget hdepth⟩

/-- C8, amended, on the Windows installation seen with two unreadable entries
before `bin`, below the root `D:\sdk\go`. -/
theorem walkDirLimited_skips_unreadable_witness :
    walkDirLimited "windows" damagedSdkTree "D:\\sdk\\go" 2 =
      walkDirLimited "windows" damagedSdkTree.eraseUnreadable "D:\\sdk\\go" 2 ∧
    walkDirLimited "windows" damagedSdkTree "D:\\sdk\\go" 2 ≠ "" :=
  walkDirLimited_skips_unreadable "windows" damagedSdkTree "D:\\sdk\\go" 2 ["bin", "go.exe"]
    (by decide) (by decide) (by decide) (by decide) (by decide)

/-- C9: on a root that does not exist `walkDirLimited` returns the empty
string, as it does on an empty directory. -/
theorem walkDirLimited_missing_root (goos : String) (root : String) (maxDepth : Int) :
    walkDirLimited goos .missing root maxDepth = "" ∧
    walkDirLimited goos .missing root maxDepth = walkDirLimited goos (.dir .nil) root maxDepth := by
  have h1 : walkDirLimited goos .missing root maxDepth = "" := by
    simp [walkDirLimited, Walk, visit_err]
  have h2 : walkDirLimited goos (.dir .nil) root maxDepth = "" := by
    rcases walkDirLimited_sound goos (.dir .nil) root maxDepth rfl with h | ⟨found, h, -⟩
    · exact h
    · simp [Tree.targetAt, Tree.fileAt, Listing.fileAt] at h
  exact ⟨h1, by rw [h1, h2]⟩

/-- C10 fails as stated: below the root `/opt/`, written with a trailing
separator, the directory `/opt/go` is one segment down and the depth computed
for it is 0; with `maxDepth = 0` it is not pruned. The same holds below the
drive root `C:\`. A directory whose names cannot be read is passed to the
callback with the error, which answers `nil` whatever the depth:
`/opt/go/api`, one segment down, with `maxDepth = 0`. On Windows, below the
root `C:/a/b` written with slashes, the directory `d`, one segment down, has
the path `C:\a\b\d` and the computed depth 3. -/
theorem pathDepth_trailing_separator_counterexample :
    (walkVisits "linux" emptyDirTree "/opt/" 0 =
      [⟨"/opt/", [], true, false, .none⟩, ⟨"/opt/go", ["go"], true, false, .none⟩] ∧
      pathDepth "linux" "/opt/" "/opt/go" = 0) ∧
    (walkVisits "windows" emptyDirTree "C:\\" 0 =
      [⟨"C:\\", [], true, false, .none⟩, ⟨"C:\\go", ["go"], true, false, .none⟩] ∧
      pathDepth "windows" "C:\\" "C:\\go" = 0) ∧
    (⟨"/opt/go/api", ["api"], true, true, .none⟩ : Visit) ∈
      walkVisits "linux" damagedTree "/opt/go" 0 ∧
    (Join "windows" ["C:/a/b", "d"] = "C:\\a\\b\\d" ∧
      pathDepth "windows" "C:/a/b" "C:\\a\\b\\d" = 3) := by
  decide

/-- C10, amended: below a root written in cleaned form that ends in a name,
the depth computed for every visited directory is the number of segments added
since the root, and a directory whose names could be read is pruned exactly
when that number exceeds `maxDepth`. -/
theorem pathDepth_counts_segments (goos : String) (t : Tree) (root : String)
    (maxDepth : Int) (hroot : IsCleanRoot goos root) (hnames : t.entryNames goos = true) :
    ∀ v ∈ walkVisits goos t root maxDepth, v.isDir = true →
      pathDepth goos root v.path = v.segs.length ∧
      (v.err = false → (v.ret = .skipDir ↔ (v.segs.length : Int) > maxDepth)) := by
  intro v hv hdir
  rcases walkVisits_good goos t root maxDepth hroot hnames v hv with
    ⟨h1, h2, h3⟩ | ⟨-, -, h3, h4⟩
  · rw [h1, h2, pathDepth_self]
    exact ⟨rfl, fun he => h3 hdir he⟩
  · exact ⟨h3, fun he => h4 hdir he⟩

/-- C10, amended, on Windows at the visit of `D:\Program Files\Go\go1.21`
with limit 0. -/
theorem pathDepth_counts_segments_witness :
    (⟨"D:\\Program Files\\Go\\go1.21", ["go1.21"], true, false, .skipDir⟩ : Visit) ∈
      walkVisits "windows" sdkTree "D:\\Program Files\\Go" 0 ∧
    pathDepth "windows" "D:\\Program Files\\Go" "D:\\Program Files\\Go\\go1.21" =
      ((["go1.21"] : List String).length : Int) ∧
    (WalkErr.skipDir = WalkErr.skipDir ↔ ((["go1.21"] : List String).length : Int) > 0) :=
  ⟨by decide,
    (pathDepth_counts_segments "windows" sdkTree "D:\\Program Files\\Go" 0
      ⟨⟨.drive 'D', true, 0, ["Program Files", "Go"]⟩, by decide, by decide⟩ (by decide)
      ⟨"D:\\Program Files\\Go\\go1.21", ["go1.21"], true, false, .skipDir⟩ (by decide) rfl).1,
    (pathDepth_counts_segments "windows" sdkTree "D:\\Program Files\\Go" 0
      ⟨⟨.drive 'D', true, 0, ["Program Files", "Go"]⟩, by decide, by decide⟩ (by decide)
      ⟨"D:\\Program Files\\Go\\go1.21", ["go1.21"], true, false, .skipDir⟩ (by decide)
      rfl).2 rfl⟩

/-! ## The discovery strategies -/

theorem probePaths_some (h : Host) (ps : List String) (p : String)
    (hp : (probePaths h ps).1 = some p) : (h.stat p).isSome = true := by
  induction ps with
  | nil => simp [probePaths] at hp
  | cons q qs ih =>
    simp only [probePaths] at hp
    split at hp
    · rename_i hq
      simp only [Option.some.injEq] at hp
      rw [← hp]
      exact hq
    · exact ih hp

theorem probeEntries_some (h : Host) (d : String) (es : List FileInfo) (p : String)
    (hp : (probeEntries h d es).1 = some p) : (h.stat p).isSome = true := by
  induction es with
  | nil => simp [probeEntries] at hp
  | cons e es ih =>
    simp only [probeEntries] at hp
    split at hp
    · split at hp
      · rename_i hq
        simp only [Option.some.injEq] at hp
        rw [← hp]
        exact hq
      · exact ih hp
    · exact ih hp

theorem probeDrives_some (h : Host) (ds : List String) (p : String)
    (hp : (probeDrives h ds).1 = some p) : (h.stat p).isSome = true := by
  induction ds with
  | nil => simp [probeDrives] at hp
  | cons d ds ih =>
    simp only [probeDrives] at hp
    split at hp
    · rename_i q hq
      simp only [Option.some.injEq] at hp
      rw [← hp]
      exact probeEntries_some h d _ q hq
    · exact ih hp

theorem scanPaths_some (h : Host) (ps : List String) (p : String)
    (hp : (scanPaths h ps).1 = some p) :
    p ≠ "" ∧ ∃ root ∈ ps, p = walkDirLimited h.goos (h.tree root) root 4 := by
  induction ps with
  | nil => simp [scanPaths] at hp
  | cons q qs ih =>
    simp only [scanPaths] at hp
    split at hp
    · rename_i hq
      simp only [Option.some.injEq] at hp
      exact ⟨hp ▸ hq, q, by simp, hp.symm⟩
    · obtain ⟨h1, root, h2, h3⟩ := ih hp
      exact ⟨h1, root, by simp [h2], h3⟩

theorem scanDrives_some (h : Host) (ds : List String) (p : String)
    (hp : (scanDrives h ds).1 = some p) :
    p ≠ "" ∧ ∃ d ∈ ds, ∃ root ∈ scanRoots h d,
      p = walkDirLimited h.goos (h.tree root) root 4 := by
  induction ds with
  | nil => simp [scanDrives] at hp
  | cons d ds ih =>
    simp only [scanDrives] at hp
    split at hp
    · rename_i q hq
      simp only [Option.some.injEq] at hp
      obtain ⟨h1, root, h2, h3⟩ := scanPaths_some h _ q hq
      exact ⟨hp ▸ h1, d, by simp, root, h2, hp ▸ h3⟩
    · obtain ⟨h1, d', h2, h3⟩ := ih hp
      exact ⟨h1, d', by simp [h2], h3⟩

theorem getD_ne_empty (o : Option String) (h : o.getD "" ≠ "") : o = some (o.getD "") := by
  cases o with
  | none => simp at h
  | some p => rfl

theorem findGo_eq_firstMatch (h : Host) : findGo h = firstMatch (strategies h) := by
  unfold findGo strategies
  cases hl : h.lookPath "go" with
  | some p => by_cases hw : h.goos = "windows" <;> simp [hw, firstMatch]
  | none =>
    by_cases hw : h.goos = "windows"
    · simp only [hw, if_true]
      cases h2 : (probePaths h (windowsPaths h)).1 with
      | some p => simp [firstMatch]
      | none =>
        by_cases h3 : (findGoInRootDirs h).1 = ""
        · by_cases h4 : (findGoInDrives h).1 = ""
          · simp [firstMatch, matchOf, h3, h4]
          · simp [firstMatch, matchOf, h3, h4]
        · simp [firstMatch, matchOf, h3]
    · simp only [hw, if_false]
      cases h2 : (probePaths h unixPaths).1 with
      | some p => simp [firstMatch]
      | none => simp [firstMatch]

theorem probePaths_eq_find (h : Host) (ps : List String) :
    (probePaths h ps).1 = ps.find? (fun p => (h.stat p).isSome) := by
  induction ps with
  | nil => rfl
  | cons p ps ih =>
    by_cases hp : (h.stat p).isSome = true
    · simp [probePaths, hp]
    · simp [probePaths, hp, ih]

/-- C4: `findGo` returns the match of the earliest strategy that has one, in
the order search-path lookup, install-path probes, drive-root probe,
bounded-depth scan, and makes the calls of no later strategy; the install
paths are probed in their listed order; when the search-path lookup succeeds,
`findGo` returns its path after that single call. -/
theorem findGo_first_match (h : Host) :
    findGo h = firstMatch (strategies h) ∧
    (∀ paths, (probePaths h paths).1 = paths.find? (fun p => (h.stat p).isSome)) ∧
    (∀ p, h.lookPath "go" = some p → findGo h = (p, [.lookPath "go"])) := by
  refine ⟨findGo_eq_firstMatch h, probePaths_eq_find h, ?_⟩
  intro p hp
  simp [findGo, hp]

/-- C5 fails as stated: on a host where `/usr/local/go/bin/go` is a directory
and the search path has no `go`, `findGo` returns that path, which is not a
file. -/
theorem findGo_returns_directory_counterexample :
    (findGo directoryHost).1 = "/usr/local/go/bin/go" ∧
    directoryHost.stat "/usr/local/go/bin/go" = some true := by
  decide

/-- C5, amended: a non-empty path returned by `findGo` is the path the
search-path lookup reported, or a path on which `os.Stat` succeeded (an
existing entry of any kind), or the path of an entry of a scanned directory
that is not a directory and is named `go` or `go.exe`. -/
theorem findGo_result_checked (h : Host)
    (hnames : ∀ root, (h.tree root).validNames h.goos = true)
    (hne : (findGo h).1 ≠ "") :
    h.lookPath "go" = some (findGo h).1 ∨ (h.stat (findGo h).1).isSome = true ∨
    ∃ d ∈ (getDrives h).1, ∃ root ∈ scanRoots h d, ∃ segs,
      (h.tree root).targetAt h.goos root segs = true ∧
      (findGo h).1 = pathOf h.goos root segs := by
  unfold findGo at hne ⊢
  cases hl : h.lookPath "go" with
  | some p => exact Or.inl (by simp)
  | none =>
    right
    simp only [hl] at hne ⊢
    by_cases hw : h.goos = "windows"
    · simp only [hw, if_true] at hne ⊢
      cases h2 : (probePaths h (windowsPaths h)).1 with
      | some p => exact Or.inl (by simpa using probePaths_some h _ p h2)
      | none =>
        simp only [h2] at hne ⊢
        by_cases h3 : (findGoInRootDirs h).1 = ""
        · simp only [h3, ne_eq, not_true_eq_false, if_false] at hne ⊢
          by_cases h4 : (findGoInDrives h).1 = ""
          · simp [h4] at hne
          · right
            simp only [h4, ne_eq, not_false_eq_true, if_true]
            have hsome := getD_ne_empty (scanDrives h (getDrives h).1).1 h4
            obtain ⟨-, d, hd, root, hroot, heq⟩ := scanDrives_some h _ _ hsome
            have heq' : (findGoInDrives h).1 = walkDirLimited h.goos (h.tree root) root 4 := heq
            rcases walkDirLimited_sound h.goos (h.tree root) root 4 (hnames root) with
              he | ⟨segs, hs1, hs2, -⟩
            · exact absurd (heq'.trans he) h4
            · exact ⟨d, hd, root, hroot, segs, by rw [← hw]; exact hs1,
                by rw [heq', hs2, hw]⟩
        · left
          simp only [h3, ne_eq, not_false_eq_true, if_true]
          have hsome := getD_ne_empty (probeDrives h (getDrives h).1).1 h3
          exact probeDrives_some h _ _ hsome
    · simp only [hw, if_false] at hne ⊢
      cases h2 : (probePaths h unixPaths).1 with
      | some p => exact Or.inl (by simpa using probePaths_some h _ p h2)
      | none => simp [h2] at hne

/-- C5, amended, on a Windows host where only the scan of `D:\Go` matches. -/
theorem findGo_result_checked_witness :
    (findGo scanHost).1 = "D:\\Go\\go1.21\\bin\\go.exe" ∧
    (scanHost.lookPath "go" = some (findGo scanHost).1 ∨
    (scanHost.stat (findGo scanHost).1).isSome = true ∨
    ∃ d ∈ (getDrives scanHost).1, ∃ root ∈ scanRoots scanHost d, ∃ segs,
      (scanHost.tree root).targetAt scanHost.goos root segs = true ∧
      (findGo scanHost).1 = pathOf scanHost.goos root segs) :=
  ⟨by decide, findGo_result_checked scanHost
    (fun root => by
      simp only [scanHost]
      split <;> decide)
    (by decide)⟩

/-! ## The program -/

theorem exe_suffix_after_dash (x a : List Char) :
    ['.', 'e', 'x', 'e'].isSuffixOf (x ++ '-' :: a) = ['.', 'e', 'x', 'e'].isSuffixOf a := by
  simp only [List.isSuffixOf, List.reverse_append, List.reverse_cons, List.reverse_nil,
    List.nil_append, List.cons_append, List.append_assoc]
  generalize a.reverse = r
  rcases r with _ | ⟨c1, _ | ⟨c2, _ | ⟨c3, _ | ⟨c4, r⟩⟩⟩⟩ <;>
    simp [List.isPrefixOf]

/-- C6 fails as stated: for the target `windows` and an architecture that ends
in `.exe` the suffix is not added. -/
theorem outputName_suffix_counterexample :
    outputName "main" "windows" "amd64.exe" = "main-windows-amd64.exe" ∧
    outputName "main" "windows" "amd64.exe" ≠
      "main" ++ "-" ++ "windows" ++ "-" ++ "amd64.exe" ++ ".exe" := by
  decide

/-- C6, amended: the output name is `base-os-arch`, followed by `.exe` exactly
when `os` is `windows` and `arch` does not already end in `.exe`, and by
nothing otherwise; `(main, windows, amd64)` gives `main-windows-amd64.exe` and
`(main, linux, arm64)` gives `main-linux-arm64`. -/
theorem outputName_eq (baseName goos goarch : String) :
    outputName baseName goos goarch =
      baseName ++ "-" ++ goos ++ "-" ++ goarch ++
        (if goos = "windows" ∧ hasSuffix goarch ".exe" = false then ".exe" else "") ∧
    outputName "main" "windows" "amd64" = "main-windows-amd64.exe" ∧
    outputName "main" "linux" "arm64" = "main-linux-arm64" := by
  refine ⟨?_, by decide, by decide⟩
  have hs : hasSuffix (baseName ++ "-" ++ goos ++ "-" ++ goarch) ".exe" =
      hasSuffix goarch ".exe" := by
    simp only [hasSuffix, String.data_append, List.append_assoc, List.singleton_append]
    rw [← List.append_assoc]
    exact exe_suffix_after_dash _ _
  unfold outputName
  simp only [hs]
  by_cases hw : goos = "windows"
  · cases hsuf : hasSuffix goarch ".exe" <;> simp [hw]
  · simp [hw]

theorem probePaths_ops (h : Host) (ps : List String) :
    ∀ op ∈ (probePaths h ps).2, op.isDiscovery = true := by
  induction ps with
  | nil => simp [probePaths]
  | cons p ps ih =>
    intro op hop
    simp only [probePaths] at hop
    split at hop
    · simp only [List.mem_singleton] at hop
      rw [hop]
      rfl
    · simp only [List.mem_cons] at hop
      rcases hop with hop | hop
      · rw [hop]
        rfl
      · exact ih op hop

theorem getDrives_ops (h : Host) : ∀ op ∈ (getDrives h).2, op.isDiscovery = true := by
  intro op hop
  simp only [getDrives, List.mem_map] at hop
  obtain ⟨d, -, hd⟩ := hop
  rw [← hd]
  rfl

theorem probeEntries_ops (h : Host) (d : String) (es : List FileInfo) :
    ∀ op ∈ (probeEntries h d es).2, op.isDiscovery = true := by
  induction es with
  | nil => simp [probeEntries]
  | cons e es ih =>
    intro op hop
    simp only [probeEntries] at hop
    split at hop
    · split at hop
      · simp only [List.mem_singleton] at hop
        rw [hop]
        rfl
      · simp only [List.mem_cons] at hop
        rcases hop with hop | hop
        · rw [hop]
          rfl
        · exact ih op hop
    · exact ih op hop

theorem probeDrives_ops (h : Host) (ds : List String) :
    ∀ op ∈ (probeDrives h ds).2, op.isDiscovery = true := by
  induction ds with
  | nil => simp [probeDrives]
  | cons d ds ih =>
    intro op hop
    cases hr : (probeEntries h d (h.readDir d)).1 with
    | some p =>
      simp only [probeDrives, hr, List.mem_cons] at hop
      rcases hop with hop | hop
      · rw [hop]
        rfl
      · exact probeEntries_ops h d _ op hop
    | none =>
      simp only [probeDrives, hr, List.mem_cons, List.mem_append] at hop
      rcases hop with (hop | hop) | hop
      · rw [hop]
        rfl
      · exact probeEntries_ops h d _ op hop
      · exact ih op hop

theorem scanPaths_ops (h : Host) (ps : List String) :
    ∀ op ∈ (scanPaths h ps).2, op.isDiscovery = true := by
  induction ps with
  | nil => simp [scanPaths]
  | cons p ps ih =>
    intro op hop
    simp only [scanPaths] at hop
    split at hop
    · simp only [List.mem_singleton] at hop
      rw [hop]
      rfl
    · simp only [List.mem_cons] at hop
      rcases hop with hop | hop
      · rw [hop]
        rfl
      · exact ih op hop

theorem scanDrives_ops (h : Host) (ds : List String) :
    ∀ op ∈ (scanDrives h ds).2, op.isDiscovery = true := by
  induction ds with
  | nil => simp [scanDrives]
  | cons d ds ih =>
    intro op hop
    cases hr : (scanPaths h (scanRoots h d)).1 with
    | some p =>
      simp only [scanDrives, hr] at hop
      exact scanPaths_ops h _ op hop
    | none =>
      simp only [scanDrives, hr, List.mem_append] at hop
      rcases hop with hop | hop
      · exact scanPaths_ops h _ op hop
      · exact ih op hop

theorem strategies_ops (h : Host) :
    ∀ s ∈ strategies h, ∀ op ∈ s.2, op.isDiscovery = true := by
  intro s hs op hop
  unfold strategies at hs
  split at hs
  · simp only [List.mem_cons, List.mem_singleton, List.not_mem_nil, or_false] at hs
    rcases hs with hs | hs | hs | hs
    · rw [hs] at hop
      simp only [List.mem_singleton] at hop
      rw [hop]
      rfl
    · rw [hs] at hop
      simp only [List.mem_cons] at hop
      rcases hop with hop | hop
      · rw [hop]
        rfl
      · exact probePaths_ops h _ op hop
    · rw [hs] at hop
      simp only [findGoInRootDirs, List.mem_append] at hop
      rcases hop with hop | hop
      · exact getDrives_ops h op hop
      · exact probeDrives_ops h _ op hop
    · rw [hs] at hop
      simp only [findGoInDrives, List.mem_append] at hop
      rcases hop with hop | hop
      · exact getDrives_ops h op hop
      · exact scanDrives_ops h _ op hop
  · simp only [List.mem_cons, List.mem_singleton, List.not_mem_nil, or_false] at hs
    rcases hs with hs | hs
    · rw [hs] at hop
      simp only [List.mem_singleton] at hop
      rw [hop]
      rfl
    · rw [hs] at hop
      exact probePaths_ops h _ op hop

theorem firstMatch_ops (ss : List (Option String × List Op))
    (hss : ∀ s ∈ ss, ∀ op ∈ s.2, op.isDiscovery = true) :
    ∀ op ∈ (firstMatch ss).2, op.isDiscovery = true := by
  induction ss with
  | nil => simp [firstMatch]
  | cons s ss ih =>
    intro op hop
    obtain ⟨m, ops⟩ := s
    cases m with
    | some p =>
      simp only [firstMatch] at hop
      exact hss (some p, ops) (by simp) op hop
    | none =>
      simp only [firstMatch, List.mem_append] at hop
      rcases hop with hop | hop
      · exact hss (none, ops) (by simp) op hop
      · exact ih (fun s hs => hss s (by simp [hs])) op hop

theorem findGo_ops (h : Host) : ∀ op ∈ (findGo h).2, op.isDiscovery = true := by
  rw [findGo_eq_firstMatch h]
  exact firstMatch_ops _ (strategies_ops h)

theorem atExit_ops (h : Host) : ∀ cmd, Op.run cmd ∉ atExit h := by
  intro cmd
  unfold atExit
  split <;> simp

/-- C7 fails as stated: `main` runs `findGo` before it reads the project path,
so in a run whose project path cannot be resolved the search-path lookup of
discovery has been made when the invalid path is reported; and when discovery
finds nothing, `main` stops before it reads the path and reports no invalid
path. -/
theorem main_discovers_first_counterexample :
    main pathErrorHost ["src/app\n"] =
      [.print "=======================================\n",
        .print "Go源文件编译成可运行程序（支持windows、linux、macos）\n",
        .print "=======================================\n\n",
        .lookPath "go",
        .print "使用 Go 编译器路径: /usr/local/go/bin/go\n",
        .print "请输入Go项目路径（留空表示当前目录）: ",
        .readLine,
        .abs "src/app",
        .print "路径无效: getwd: no such file or directory\n"] ∧
    main bareHost ["src/app\n"] =
      [.print "=======================================\n",
        .print "Go源文件编译成可运行程序（支持windows、linux、macos）\n",
        .print "=======================================\n\n",
        .lookPath "go",
        .stat "/usr/local/go/bin/go",
        .stat "/usr/bin/go",
        .stat "/usr/local/bin/go",
        .print "未找到 Go 可执行文件，请先安装 Go 并确保 PATH 配置正确\n"] := by
  decide

/-- C7, amended: in every run in which `findGo` has found a toolchain and the
project path typed is not empty and cannot be resolved to an absolute path,
`main` reports the invalid path right after the calls of discovery and the
prompt, and runs no build command. -/
theorem main_invalid_path (h : Host) (input : List String) (e : String)
    (hfound : (findGo h).1 ≠ "") (hpath : trimSpace (readString input).1 ≠ "")
    (habs : h.abs (trimSpace (readString input).1) = .error e) :
    main h input =
      [.print "=======================================\n",
        .print "Go源文件编译成可运行程序（支持windows、linux、macos）\n",
        .print "=======================================\n\n"] ++ (findGo h).2 ++
      [.print ("使用 Go 编译器路径: " ++ (findGo h).1 ++ "\n"),
        .print "请输入Go项目路径（留空表示当前目录）: ",
        .readLine,
        .abs (trimSpace (readString input).1),
        .print ("路径无效: " ++ e ++ "\n")] ++ atExit h ∧
    ∀ cmd, Op.run cmd ∉ main h input := by
  have hmain : main h input =
      [.print "=======================================\n",
        .print "Go源文件编译成可运行程序（支持windows、linux、macos）\n",
        .print "=======================================\n\n"] ++ (findGo h).2 ++
      [.print ("使用 Go 编译器路径: " ++ (findGo h).1 ++ "\n"),
        .print "请输入Go项目路径（留空表示当前目录）: ",
        .readLine,
        .abs (trimSpace (readString input).1),
        .print ("路径无效: " ++ e ++ "\n")] ++ atExit h := by
    simp only [main, hfound, hpath, habs, if_false]
    simp
  refine ⟨hmain, ?_⟩
  intro cmd hmem
  rw [hmain] at hmem
  simp only [List.mem_append, List.mem_cons, List.mem_singleton, List.not_mem_nil,
    reduceCtorEq, or_false, false_or] at hmem
  rcases hmem with hmem | hmem
  · have := findGo_ops h _ hmem
    simp [Op.isDiscovery] at this
  · exact atExit_ops h cmd hmem

/-- C7, amended, on a host where the project path `src/app` cannot be resolved. -/
theorem main_invalid_path_witness :
    main pathErrorHost ["src/app\n"] =
      [.print "=======================================\n",
        .print "Go源文件编译成可运行程序（支持windows、linux、macos）\n",
        .print "=======================================\n\n"] ++ (findGo pathErrorHost).2 ++
      [.print ("使用 Go 编译器路径: " ++ (findGo pathErrorHost).1 ++ "\n"),
        .print "请输入Go项目路径（留空表示当前目录）: ",
        .readLine,
        .abs (trimSpace (readString ["src/app\n"]).1),
        .print ("路径无效: " ++ "getwd: no such file or directory" ++ "\n")] ++
        atExit pathErrorHost ∧
    ∀ cmd, Op.run cmd ∉ main pathErrorHost ["src/app\n"] :=
  main_invalid_path pathErrorHost ["src/app\n"] "getwd: no such file or directory"
    (by decide) (by decide) rfl

end GoBuilder
